import Mathlib

/-!
Verification development for the multicast core of this repository.

Shallow embedding of:
  - src/node/HashArray.hpp   (open-addressing hash table of pointers)
  - src/node/Multicaster.hpp (MGroups store, getGroup/findGroup/eraseGroup)
  - src/node/Multicaster.cpp (addMultiple, _add, gather, send, clean)

Modelling conventions:
  - Pointer sentinels (0x0 free, 0x1 dummy) become the tagged type Slot.
  - Machine integers become Nat; uint64 subtraction is modelled by sub64.
  - The power-of-two capacity makes the source index step (p + 1) & (cap - 1)
    equal to (p + 1) % cap, which is how the step is written here (the source
    file itself documents the identity x % y == x & (y - 1) for y = 2^n).
  - The unbounded while(true) probe loops of the source are written with an
    explicit fuel argument equal to the capacity; fuel exhaustion corresponds
    to the source spinning forever around a table with no free slot (or, in
    gather, around a member list with duplicate addresses), and the model then
    returns the failure/no-change result.
  - Network sends, printf and TRACE calls are external I/O and have no effect
    on the modelled state.
-/

namespace ZTProof

/-! ## Slots and tables (HashArray.hpp) -/

/-- A table slot: the source marks an element empty with the pointer 0x0
(`free_ptr`) and deleted with 0x1 (`dummy_ptr`); a real entry is any larger
pointer. -/
inductive Slot (E : Type) where
  | free
  | dummy
  | occ (e : E)
deriving Repr, DecidableEq

/-- HashArray state: the slot array `_data` and the live-entry count `_size`.
The source also stores `_capacity`, which always equals the allocation length;
here the capacity is the list length. -/
structure Table (E : Type) where
  data : List (Slot E)
  size : Nat
deriving Repr, DecidableEq

/-- `_capacity` of a table. -/
def capacity (t : Table E) : Nat := t.data.length

/-- Read slot `p` (out-of-range reads never happen in the source; the model
returns `free`). -/
def getSlot (data : List (Slot E)) (p : Nat) : Slot E := data.getD p .free

/-- HashArray::is_power_of_2. -/
def is_power_of_2 (n : Nat) : Bool := n != 0 && (n &&& (n - 1)) == 0

/-- The probe loop of HashArray::find: live matching slot stops with its
index, a free slot stops with `none` (end()), dummy and non-matching live
slots continue at (p + 1) mod capacity. -/
def findLoop (data : List (Slot E)) (keq : E → Bool) : Nat → Nat → Option Nat
  | _, 0 => none
  | p, fuel + 1 =>
    match getSlot data p with
    | .occ e => if keq e then some p else findLoop data keq ((p + 1) % data.length) fuel
    | .dummy => findLoop data keq ((p + 1) % data.length) fuel
    | .free => none

/-- HashArray::find, returning the index of the live matching slot. -/
def findIdx (t : Table E) (hk : Nat) (keq : E → Bool) : Option Nat :=
  findLoop t.data keq (hk % capacity t) (capacity t)

/-- HashArray::find, returning the entry itself. -/
def Table.find (t : Table E) (hk : Nat) (keq : E → Bool) : Option E :=
  match findIdx t hk keq with
  | some p => match getSlot t.data p with
    | .occ e => some e
    | _ => none
  | none => none

/-- The probe loop of HashArray::set: a live equal entry stops with
`some none` (return false), the first free-or-dummy slot stops with
`some (some p)` (insert there), otherwise continue. -/
def setLoop (data : List (Slot E)) (keq : E → Bool) : Nat → Nat → Option (Option Nat)
  | _, 0 => none
  | p, fuel + 1 =>
    match getSlot data p with
    | .occ e => if keq e then some none else setLoop data keq ((p + 1) % data.length) fuel
    | _ => some (some p)

/-- The probe loop of HashArray::resize: place a rehashed entry at the first
free slot. -/
def insertFreeLoop (data : List (Slot E)) : Nat → Nat → Option Nat
  | _, 0 => none
  | p, fuel + 1 =>
    match getSlot data p with
    | .free => some p
    | _ => insertFreeLoop data ((p + 1) % data.length) fuel

/-- One step of the rehash loop in HashArray::resize: a live entry is placed
at the first free slot of its new probe chain; empty and dummy slots of the
old table are skipped. -/
def rehashInto (hashE : E → Nat) (newCap : Nat) (nd : List (Slot E)) (s : Slot E) :
    List (Slot E) :=
  match s with
  | .occ e =>
    match insertFreeLoop nd (hashE e % newCap) newCap with
    | some p => nd.set p (.occ e)
    | none => nd
  | _ => nd

/-- HashArray::resize: allocate `newCap` empty slots and rehash every live
entry of the old table into them; `_size` is unchanged.  (The end-marker
written at index newCap exists only to stop iterators and is not modelled.) -/
def resize (hashE : E → Nat) (t : Table E) (newCap : Nat) : Table E :=
  ⟨t.data.foldl (rehashInto hashE newCap) (List.replicate newCap .free), t.size⟩

/-- HashArray::grow: double the capacity once the live load exceeds
cap/2 + cap/4 + cap/8 (87.5%). -/
def grow (hashE : E → Nat) (t : Table E) : Table E :=
  if capacity t / 2 + capacity t / 4 + capacity t / 8 < t.size then
    resize hashE t (capacity t * 2)
  else t

/-- HashArray::shrink: halve the capacity once, when it exceeds the floor
min_capacity = 8 and the live load is under 50%. -/
def shrink (hashE : E → Nat) (t : Table E) : Table E :=
  if 8 < capacity t ∧ t.size < capacity t / 2 then
    resize hashE t (capacity t / 2)
  else t

/-- HashArray::compact. -/
def Table.compact (hashE : E → Nat) (t : Table E) : Table E := shrink hashE t

/-- HashArray::set: probing from hash & mask, return false on a live equal
entry, otherwise write the value into the first free-or-dummy slot, bump
`_size` and maybe grow. -/
def Table.set (t : Table E) (hashE : E → Nat) (hk : Nat) (keq : E → Bool) (v : E) :
    Table E × Bool :=
  match setLoop t.data keq (hk % capacity t) (capacity t) with
  | some (some p) => (grow hashE ⟨t.data.set p (.occ v), t.size + 1⟩, true)
  | some none => (t, false)
  | none => (t, false)

/-- The probe loop of HashArray::erase (by key): identical probing to find. -/
def eraseLoop (data : List (Slot E)) (keq : E → Bool) : Nat → Nat → Option Nat
  | _, 0 => none
  | p, fuel + 1 =>
    match getSlot data p with
    | .occ e => if keq e then some p else eraseLoop data keq ((p + 1) % data.length) fuel
    | .dummy => eraseLoop data keq ((p + 1) % data.length) fuel
    | .free => none

/-- HashArray::erase (by key): tombstone the live matching slot and decrement
`_size`; false when the probe chain reaches a free slot. -/
def Table.erase (t : Table E) (hk : Nat) (keq : E → Bool) : Table E × Bool :=
  match eraseLoop t.data keq (hk % capacity t) (capacity t) with
  | some p => (⟨t.data.set p .dummy, t.size - 1⟩, true)
  | none => (t, false)

/-- The HashArray default constructor resizes an empty table to
min_capacity = 8. -/
def initTable : Table E := resize (fun _ => 0) ⟨[], 0⟩ 8

/-- Live entries of a slot array, in slot order. -/
def occList (data : List (Slot E)) : List E :=
  data.filterMap (fun s => match s with | .occ e => some e | _ => none)

/-- Number of live slots. -/
def occCount (data : List (Slot E)) : Nat := (occList data).length

/-- Number of tombstone slots. -/
def dummyCount (data : List (Slot E)) : Nat :=
  data.countP (fun s => match s with | .dummy => true | _ => false)

/-- Number of empty slots. -/
def freeCount (data : List (Slot E)) : Nat :=
  data.countP (fun s => match s with | .free => true | _ => false)

/-- A generic operation on the table, for quantifying over arbitrary
insert/erase/compact sequences. -/
inductive HOp (E : Type) where
  | hset (hashE : E → Nat) (hk : Nat) (keq : E → Bool) (v : E)
  | herase (hk : Nat) (keq : E → Bool)
  | hcompact (hashE : E → Nat)

/-- Apply one operation. -/
def applyOp (t : Table E) : HOp E → Table E
  | .hset hashE hk keq v => (t.set hashE hk keq v).1
  | .herase hk keq => (t.erase hk keq).1
  | .hcompact hashE => t.compact hashE

/-! ## Multicaster data model (Multicaster.hpp) -/

/-- ZT_ADDRESS_LENGTH: a ZeroTier address is 5 bytes (40 bits). -/
def ZT_ADDRESS_LENGTH : Nat := 5

/-- Modelled from the spec: ZT_UDP_DEFAULT_PAYLOAD_MTU, the fixed MTU ceiling
used by gather (Constants.hpp is not under src/). -/
def ZT_UDP_DEFAULT_PAYLOAD_MTU : Nat := 1444

/-- Modelled from the spec: ZT_MULTICAST_LIKE_EXPIRE, the fixed member
liveness window used by clean (Constants.hpp is not under src/). -/
def ZT_MULTICAST_LIKE_EXPIRE : Nat := 600000

/-- Modelled from the spec: ZT_MULTICAST_TRANSMIT_TIMEOUT, the fixed age
threshold of a pending transmission (Constants.hpp is not under src/). -/
def ZT_MULTICAST_TRANSMIT_TIMEOUT : Nat := 5000

/-- Modelled from the spec: ZT_MULTICAST_EXPLICIT_GATHER_DELAY, the per-group
rate limit of explicit upstream gathers (Constants.hpp is not under src/). -/
def ZT_MULTICAST_EXPLICIT_GATHER_DELAY : Nat := 60000

/-- uint64_t subtraction a - b (wraps modulo 2^64), as used for all the age
computations. -/
def sub64 (a b : Nat) : Nat := (a % 2 ^ 64 + 2 ^ 64 - b % 2 ^ 64) % 2 ^ 64

/-- Modelled from the spec: a GroupKey is a 48-bit MAC-like group address plus
a 32-bit additional distinguisher (MulticastGroup.hpp is not under src/).
Both fields are Nat here. -/
structure MulticastGroup where
  mac : Nat
  adi : Nat
deriving Repr, DecidableEq

/-- Multicaster::MulticastGroupMember: a member address (40-bit, as Nat) and
the time it was last seen. -/
structure MulticastGroupMember where
  address : Nat
  timestamp : Nat
deriving Repr, DecidableEq

/-- Modelled from the spec: OutboundMulticast (OutboundMulticast.hpp is not
under src/) is one pending multicast send: its creation time, its
dissemination limit, its remaining gather budget, and the list of addresses
already notified (the spec says a transmission never notifies the same
address twice, which sendIfNew enforces below). Payload, certificate and wire
fields do not affect the modelled state. -/
structure OutboundMulticast where
  timestamp : Nat
  limit : Nat
  gatherLimit : Nat
  alreadySentTo : List Nat
deriving Repr, DecidableEq

/-- Modelled from the spec: OutboundMulticast::atLimit, true once the
transmission has notified `limit` addresses. -/
def OutboundMulticast.atLimit (om : OutboundMulticast) : Bool :=
  om.limit ≤ om.alreadySentTo.length

/-- Modelled from the spec: OutboundMulticast::expired, true once the
transmission is older than the fixed transmit timeout. -/
def OutboundMulticast.expired (om : OutboundMulticast) (now : Nat) : Bool :=
  ZT_MULTICAST_TRANSMIT_TIMEOUT ≤ sub64 now om.timestamp

/-- Modelled from the spec: OutboundMulticast::sendAndLog notifies an address
(network I/O, not modelled) and records it. -/
def OutboundMulticast.sendAndLog (om : OutboundMulticast) (a : Nat) : OutboundMulticast :=
  { om with alreadySentTo := om.alreadySentTo ++ [a] }

/-- Modelled from the spec: OutboundMulticast::sendIfNew notifies an address
only if it has not been notified before. -/
def OutboundMulticast.sendIfNew (om : OutboundMulticast) (a : Nat) : OutboundMulticast :=
  if a ∈ om.alreadySentTo then om else om.sendAndLog a

/-- Multicaster::MulticastGroupStatus: one tracked group. -/
structure MulticastGroupStatus where
  nwid : Nat
  mac : Nat
  lastExplicitGather : Nat
  txQueue : List OutboundMulticast
  members : List MulticastGroupMember
deriving Repr, DecidableEq

/-- MulticastGroupStatus::hash: the group MAC only (the network id is not
hashed). -/
def hashMGS (gs : MulticastGroupStatus) : Nat := gs.mac

/-- MGroups::Key::operator==: a key matches an entry when both the group MAC
and the network id agree. -/
def keyEq (mac nwid : Nat) (gs : MulticastGroupStatus) : Bool :=
  gs.mac == mac && gs.nwid == nwid

/-- The Multicaster state: the MGroups hash table, the MGroups::last_mac
debug field (a default MAC, 0, initially), and whether any assert in
MGroups::getGroup has failed (a debug build aborts at that point; the model
records the failure and continues as an NDEBUG build would). -/
structure Multicaster where
  groups : Table MulticastGroupStatus
  last_mac : Nat
  assertFailed : Bool
deriving Repr, DecidableEq

/-- The external collaborators of the Multicaster (spec section 6): the local
node identity address, the subscribed-to-group test used by gather, and the
pseudo-random stream (indexed by draw counter). -/
structure Env where
  localAddress : Nat
  subscribed : Nat → MulticastGroup → Bool
  prng : Nat → Nat

/-- MGroups::findGroup: find by Key(mg.mac(), nwid); Key::hash() is the MAC
alone. -/
def findGroup (t : Table MulticastGroupStatus) (nwid : Nat) (mg : MulticastGroup) :
    Option MulticastGroupStatus :=
  t.find mg.mac (keyEq mg.mac nwid)

/-- In-place mutation of the group a C++ caller holds by reference: find its
slot by key and rewrite it.  (In the source the reference obtained from
getGroup survives resizes because the table stores pointers.) -/
def modifyGroup (m : Multicaster) (nwid : Nat) (mg : MulticastGroup)
    (f : MulticastGroupStatus → MulticastGroupStatus) : Multicaster :=
  match findIdx m.groups mg.mac (keyEq mg.mac nwid) with
  | some p =>
    match getSlot m.groups.data p with
    | .occ gs => { m with groups := ⟨m.groups.data.set p (.occ (f gs)), m.groups.size⟩ }
    | _ => m
  | none => m

/-- MGroups::getGroup: return the existing group, or create it.  Creation
runs assert(last_mac != mg.mac()) (recorded in assertFailed), updates
last_mac, inserts the fresh status and runs assert(ok) on the insert. -/
def getGroup (m : Multicaster) (nwid : Nat) (mg : MulticastGroup) :
    Multicaster × MulticastGroupStatus :=
  match findGroup m.groups nwid mg with
  | some gs => (m, gs)
  | none =>
    let af := m.assertFailed || (m.last_mac == mg.mac)
    let gs : MulticastGroupStatus := ⟨nwid, mg.mac, 0, [], []⟩
    let r := m.groups.set hashMGS mg.mac (keyEq mg.mac nwid) gs
    (⟨r.1, mg.mac, af || !r.2⟩, gs)

/-! ## Multicaster operations (Multicaster.cpp) -/

/-- The member-refresh scan of Multicaster::_add: update the timestamp of the
first member with this address and stop; `none` when the address is not yet a
member. -/
def refreshMember (now a : Nat) : List MulticastGroupMember →
    Option (List MulticastGroupMember)
  | [] => none
  | mm :: rest =>
    if mm.address == a then some ({ mm with timestamp := now } :: rest)
    else (refreshMember now a rest).map (mm :: ·)

/-- The txQueue sweep of Multicaster::_add after a new member joined: drop
transmissions already at their limit, notify the rest of the new member, and
drop any that reach their limit as a result. -/
def txSweep (a : Nat) : List OutboundMulticast → List OutboundMulticast
  | [] => []
  | tx :: rest =>
    if tx.atLimit then txSweep a rest
    else
      let tx2 := tx.sendIfNew a
      if tx2.atLimit then txSweep a rest
      else tx2 :: txSweep a rest

/-- Multicaster::_add (assumes the group already exists; the caller passes a
reference into the table).  Refuses when the group count exceeds 1600, never
adds the local node, refreshes the timestamp of a known member, and appends a
new member and notifies the pending transmissions otherwise. -/
def Multicaster._add (env : Env) (m : Multicaster) (now nwid : Nat)
    (mg : MulticastGroup) (member : Nat) : Multicaster :=
  if 1600 < m.groups.size then m
  else if member == env.localAddress then m
  else modifyGroup m nwid mg (fun gs =>
    match refreshMember now member gs.members with
    | some ms => { gs with members := ms }
    | none =>
      { gs with
        members := gs.members ++ [⟨member, now⟩],
        txQueue := txSweep member gs.txQueue })

/-- Multicaster::add: getGroup (creating the group on a miss, with no ceiling
check before the creation) and then _add. -/
def Multicaster.add (env : Env) (m : Multicaster) (now nwid : Nat)
    (mg : MulticastGroup) (member : Nat) : Multicaster :=
  (getGroup m nwid mg).1._add env now nwid mg member

/-- Decode one 5-byte big-endian address field. -/
def decode40 (bs : List Nat) : Nat :=
  match bs with
  | [b0, b1, b2, b3, b4] => ((((b0 * 256 + b1) * 256 + b2) * 256 + b3) * 256 + b4)
  | _ => 0

/-- The packed address fields of Multicaster::addMultiple's input buffer. -/
def packedAddresses (bs : List Nat) (count : Nat) : List Nat :=
  (List.range count).map (fun i => decode40 ((bs.drop (5 * i)).take 5))

/-- Multicaster::addMultiple: refuse outright when the group count exceeds
1600; otherwise getGroup once and _add every packed address. -/
def Multicaster.addMultiple (env : Env) (m : Multicaster) (now nwid : Nat)
    (mg : MulticastGroup) (bs : List Nat) (count : Nat) : Multicaster :=
  if 1600 < m.groups.size then m
  else
    (packedAddresses bs count).foldl
      (fun m2 a => m2._add env now nwid mg a) (getGroup m nwid mg).1

/-! ## Packet bytes and gather (Multicaster.cpp) -/

/-- A packet is its byte buffer; Packet::size() is the length.  The gather
result is appended at the end, exactly as the source appends to `appendTo`. -/
structure Packet where
  bytes : List Nat
deriving Repr, DecidableEq

/-- The 5-byte big-endian encoding gather writes for one address
((a >> 32) & 0xff down to a & 0xff). -/
def encode40 (a : Nat) : List Nat :=
  [a / 2 ^ 32 % 256, a / 2 ^ 24 % 256, a / 2 ^ 16 % 256, a / 2 ^ 8 % 256, a % 256]

/-- The 4-byte big-endian encoding of Packet::setAt with a uint32 (the cast
truncates modulo 2^32, which the byte arithmetic does inherently). -/
def encode32 (v : Nat) : List Nat :=
  [v / 2 ^ 24 % 256, v / 2 ^ 16 % 256, v / 2 ^ 8 % 256, v % 256]

/-- The 2-byte big-endian encoding of Packet::setAt with a uint16. -/
def encode16 (v : Nat) : List Nat := [v / 256 % 256, v % 256]

/-- Big-endian value of a 2-byte field. -/
def decode16 (bs : List Nat) : Nat :=
  match bs with
  | [b0, b1] => b0 * 256 + b1
  | _ => 0

/-- Packet::setAt: overwrite `vals.length` bytes at position `pos` (always in
range in the source, which throws past the buffer end). -/
def setBytes (bs : List Nat) (pos : Nat) (vals : List Nat) : List Nat :=
  bs.take pos ++ vals ++ bs.drop (pos + vals.length)

/-- The duplicate-rejecting random member draw of gather (the
restart_member_scan loop): starting from the random rptr, advance until the
member at rptr mod size has an address outside `picked`.  The source loop has
no bound; when every address in reach is already picked (impossible while
member addresses are distinct and fewer than size are picked) the source
spins forever and the model stops the enclosing loop via `none`. -/
def scanPick (members : List MulticastGroupMember) (picked : List Nat) :
    Nat → Nat → Option Nat
  | _, 0 => none
  | rptr, fuel + 1 =>
    let a := (members.getD (rptr % members.length) ⟨0, 0⟩).address
    if a ∈ picked then scanPick members picked (rptr + 1) fuel else some a

/-- The member-sampling loop of gather: while fewer than `limit` addresses
were appended, not every member was picked, and one more 5-byte address still
fits under the MTU, draw a fresh member; append it unless it is the querying
peer.  The fuel is the member count: each iteration picks exactly one more
member, so the source loop runs at most members.length iterations. -/
def gatherLoop (prng : Nat → Nat) (members : List MulticastGroupMember) (q limit : Nat) :
    Nat → List Nat → List Nat → Nat → Nat → List Nat × Nat
  | 0, _, bytes, added, _ => (bytes, added)
  | fuel + 1, picked, bytes, added, c =>
    if added < limit ∧ picked.length < members.length ∧
        bytes.length + ZT_ADDRESS_LENGTH ≤ ZT_UDP_DEFAULT_PAYLOAD_MTU then
      match scanPick members picked (prng c) members.length with
      | none => (bytes, added)
      | some a =>
        if q ≠ a then
          gatherLoop prng members q limit fuel (picked ++ [a]) (bytes ++ encode40 a)
            (added + 1) (c + 1)
        else
          gatherLoop prng members q limit fuel (picked ++ [a]) bytes added (c + 1)
    else (bytes, added)

/-- Multicaster::gather: with limit 0 return 0 at once (appending nothing);
otherwise clamp the limit to 0xffff, reserve the 4-byte total-known and
2-byte appended-count fields, append the local address first when the local
node subscribes to the group, sample random members (skipping the querying
peer), and finally write the two count fields. -/
def Multicaster.gather (env : Env) (m : Multicaster) (queryingPeer nwid : Nat)
    (mg : MulticastGroup) (appendTo : Packet) (limit : Nat) : Packet × Nat :=
  if limit = 0 then (appendTo, 0)
  else
    let lim := min limit 0xffff
    let totalAt := appendTo.bytes.length
    let b1 := appendTo.bytes ++ List.replicate 4 0
    let addedAt := b1.length
    let b2 := b1 ++ List.replicate 2 0
    let self := env.subscribed nwid mg
    let b3 := if self then b2 ++ encode40 env.localAddress else b2
    let tk0 : Nat := if self then 1 else 0
    let ad0 : Nat := if self then 1 else 0
    let r :=
      match findGroup m.groups nwid mg with
      | some gs =>
        if gs.members.isEmpty then (b3, tk0, ad0)
        else
          let lr := gatherLoop env.prng gs.members queryingPeer lim
            gs.members.length [] b3 ad0 0
          (lr.1, tk0 + gs.members.length, lr.2)
      | none => (b3, tk0, ad0)
    let b5 := setBytes r.1 totalAt (encode32 r.2.1)
    let b6 := setBytes b5 addedAt (encode16 r.2.2)
    (⟨b6⟩, r.2.2)

/-! ## send and clean (Multicaster.cpp) -/

/-- One swap of the Fisher-Yates shuffle in Multicaster::send. -/
def swapIdx (l : List Nat) (i j : Nat) : List Nat :=
  let vi := l.getD i 0
  let vj := l.getD j 0
  (l.set i vj).set j vi

/-- The Fisher-Yates loop of Multicaster::send: for i from n-1 down to 1,
swap index i with a random index j ≤ i. -/
def fyAux (prng : Nat → Nat) : Nat → Nat → List Nat → List Nat
  | _, 0, idx => idx
  | c, i + 1, idx => fyAux prng (c + 1) i (swapIdx idx (i + 1) (prng c % (i + 2)))

/-- The random permutation of member indexes generated by Multicaster::send. -/
def fisherYates (prng : Nat → Nat) (n : Nat) : List Nat :=
  fyAux prng 0 (n - 1) (List.range n)

/-- The alwaysSendTo loop of Multicaster::send (queued strategy): notify every
listed peer except the local node, stopping once `limit` notifications were
made. -/
def notifyAst (localAddr limit : Nat) (out : OutboundMulticast) (count : Nat) :
    List Nat → OutboundMulticast × Nat
  | [] => (out, count)
  | ast :: rest =>
    if ast ≠ localAddr then
      let out2 := out.sendAndLog ast
      if limit ≤ count + 1 then (out2, count + 1)
      else notifyAst localAddr limit out2 (count + 1) rest
    else notifyAst localAddr limit out count rest

/-- The member loop of Multicaster::send (queued strategy): walk the shuffled
indexes while fewer than `limit` notifications were made, skipping members
already in alwaysSendTo. -/
def notifyMembers (alwaysSendTo : List Nat) (limit : Nat)
    (members : List MulticastGroupMember) (out : OutboundMulticast) (count : Nat) :
    List Nat → OutboundMulticast × Nat
  | [] => (out, count)
  | i :: rest =>
    if count < limit then
      let ma := (members.getD i ⟨0, 0⟩).address
      if ma ∈ alwaysSendTo then notifyMembers alwaysSendTo limit members out count rest
      else notifyMembers alwaysSendTo limit members (out.sendAndLog ma) (count + 1) rest
    else (out, count)

/-- Multicaster::send.  getGroup (creating the group on a miss, with no
ceiling check), then: with at least `limit` known members the transmission is
a transient object whose sendOnly calls are pure network I/O, so the store is
unchanged; with fewer members, optionally refresh the rate-limited explicit
upstream gather (a network send; it zeroes the gather budget and stamps
lastExplicitGather even when no root is known the stamp still happens — the
getBestRoot test only guards the network send), then append one persistent
OutboundMulticast to the group's txQueue and notify alwaysSendTo and the
shuffled members through it.  The payload arguments (com, src, etherType,
data, len) do not affect the modelled state and are omitted. -/
def Multicaster.send (env : Env) (m : Multicaster) (limit now nwid : Nat)
    (alwaysSendTo : List Nat) (mg : MulticastGroup) : Multicaster :=
  let r := getGroup m nwid mg
  let m1 := r.1
  let gs := r.2
  let indexes := if gs.members.isEmpty then [] else fisherYates env.prng gs.members.length
  if limit ≤ gs.members.length then
    m1
  else
    let doGather := ZT_MULTICAST_EXPLICIT_GATHER_DELAY ≤ sub64 now gs.lastExplicitGather
    let gatherLimit := if doGather then 0 else limit - gs.members.length + 1
    let out0 : OutboundMulticast := ⟨now, limit, gatherLimit, []⟩
    let r1 := notifyAst env.localAddress limit out0 0 alwaysSendTo
    let r2 := notifyMembers alwaysSendTo limit gs.members r1.1 r1.2 indexes
    modifyGroup m1 nwid mg (fun gs2 =>
      { gs2 with
        lastExplicitGather := if doGather then now else gs2.lastExplicitGather,
        txQueue := gs2.txQueue ++ [r2.1] })

/-- The per-group sweep of Multicaster::clean: drop expired and at-limit
transmissions, keep only members seen within the liveness window. -/
def cleanGroup (now : Nat) (gs : MulticastGroupStatus) : MulticastGroupStatus :=
  { gs with
    txQueue := gs.txQueue.filter (fun tx => !(tx.expired now || tx.atLimit)),
    members := gs.members.filter (fun mm =>
      sub64 now mm.timestamp < ZT_MULTICAST_LIKE_EXPIRE) }

/-- Whether clean erases a group: no member survived the sweep and the
pending-transmission queue is empty too. -/
def cleanErases (now : Nat) (gs : MulticastGroupStatus) : Bool :=
  (cleanGroup now gs).members.isEmpty && (cleanGroup now gs).txQueue.isEmpty

/-- The slot sweep of Multicaster::clean: every live group is swept; groups
left with no members and no pending transmissions are tombstoned
(eraseGroup). -/
def cleanData (now : Nat) (data : List (Slot MulticastGroupStatus)) :
    List (Slot MulticastGroupStatus) :=
  data.map (fun s =>
    match s with
    | .occ gs => if cleanErases now gs then .dummy else .occ (cleanGroup now gs)
    | s => s)

/-- Whether a slot holds a group that clean erases (free and tombstone slots
are not live groups, so they count for nothing). -/
def cleanErasedP (now : Nat) : Slot MulticastGroupStatus → Bool
  | .occ gs => cleanErases now gs
  | _ => false

/-- Multicaster::clean: sweep every group, erase the empty ones (each erase
decrements `_size`), and finish with a table compact(). -/
def Multicaster.clean (m : Multicaster) (now : Nat) : Multicaster :=
  { m with groups :=
      Table.compact hashMGS ⟨cleanData now m.groups.data,
        m.groups.size - m.groups.data.countP (cleanErasedP now)⟩ }

/-! ## Concrete states used by the counterexamples and witnesses -/

/-- An environment with no subscriptions: local address 99. -/
def env0 : Env := ⟨99, fun _ _ => false, fun _ => 0⟩

/-- The empty Multicaster (fresh MGroups over a fresh HashArray; last_mac is
a default MAC). -/
def m0 : Multicaster := ⟨initTable, 0, false⟩

/-- Slot i of the 1601-group store: groups with MACs 0..1600 (all of network
1), each in its home slot of a capacity-2048 table, which is where
consecutive inserts place them. -/
def bigF (i : Nat) : Slot MulticastGroupStatus :=
  if i < 1601 then Slot.occ ⟨1, i, 0, [], []⟩ else Slot.free

/-- The slot array holding 1601 distinct groups. -/
def bigData : List (Slot MulticastGroupStatus) := (List.range 2048).map bigF

/-- A store holding 1601 distinct groups, as reached by 1601 group
creations (addMultiple refuses creation only above 1600, so 1601 groups are
reachable through it alone). -/
def bigM : Multicaster := ⟨⟨bigData, 1601⟩, 0, false⟩

/-- The table state of the C1 scenario: insert 8, insert 16 (same bucket),
erase 8, then re-insert 16 (identity hash, keys are the entries). -/
def c1Table : Table Nat × Bool :=
  let s1 := (Table.set initTable id 8 (· == 8) 8).1
  let s2 := (Table.set s1 id 16 (· == 16) 16).1
  let s3 := (Table.erase s2 8 (· == 8)).1
  Table.set s3 id 16 (· == 16) 16

/-- The Multicaster state of the C2 scenario after creating group
(nwid 1, mac 77): the second creation (nwid 2, mac 77) runs into
assert(last_mac != mg.mac()). -/
def c2First : Multicaster := (getGroup m0 1 ⟨77, 0⟩).1

/-- The operation sequence of the C8 scenario: insert keys 0..14 (growing the
table to capacity 32), then erase keys 0..12 (leaving 2 live entries and 13
tombstones). -/
def c8Ops : List (HOp Nat) :=
  ((List.range 15).map (fun i => HOp.hset id i (fun e => e == i) i)) ++
  ((List.range 13).map (fun i => HOp.herase i (fun e => e == i)))

/-- The table of the C8 scenario: capacity 32 with 2 live entries. -/
def c8Table : Table Nat := c8Ops.foldl applyOp initTable

/-- An environment where the local node (address 42) subscribes to every
group; used to query gather with the local node as the requester. -/
def cEnv : Env := ⟨42, fun _ _ => true, fun _ => 0⟩

/-- An environment where the local node (address 77) subscribes to every
group. -/
def cEnv2 : Env := ⟨77, fun _ _ => true, fun _ => 0⟩

/-- A packet already holding 1434 bytes, leaving no room for the gather
header plus one address under the 1444-byte MTU. -/
def bigPkt : Packet := ⟨List.replicate 1434 0⟩

/-- The persistent OutboundMulticast built by the queued strategy of
Multicaster::send (the object pushed onto the group's txQueue, after the
alwaysSendTo and shuffled-member notifications), named so the send theorems
can speak about it. -/
def sendQueuedOut (env : Env) (m : Multicaster) (limit now nwid : Nat)
    (alwaysSendTo : List Nat) (mg : MulticastGroup) : OutboundMulticast :=
  let r := getGroup m nwid mg
  let gs := r.2
  let indexes := if gs.members.isEmpty then [] else fisherYates env.prng gs.members.length
  let doGather := ZT_MULTICAST_EXPLICIT_GATHER_DELAY ≤ sub64 now gs.lastExplicitGather
  let gatherLimit := if doGather then 0 else limit - gs.members.length + 1
  let out0 : OutboundMulticast := ⟨now, limit, gatherLimit, []⟩
  let r1 := notifyAst env.localAddress limit out0 0 alwaysSendTo
  (notifyMembers alwaysSendTo limit gs.members r1.1 r1.2 indexes).1

/-- A one-group, one-member Multicaster used as the concrete send witness:
group MAC 3 of network 1 in its home slot, with one member (address 5). -/
def sendM : Multicaster :=
  ⟨⟨(List.replicate 8 Slot.free).set 3 (.occ ⟨1, 3, 0, [], [⟨5, 100⟩]⟩), 1⟩, 3, false⟩

/-- A two-group Multicaster used as the concrete clean witness: group MAC 2
holds only a member last seen at time 100 (stale by time 700000), group MAC 3
holds a member last seen at 650000 (still fresh then). -/
def cleanM : Multicaster :=
  ⟨⟨((List.replicate 8 Slot.free).set 2 (.occ ⟨1, 2, 0, [], [⟨5, 100⟩]⟩)).set 3
      (.occ ⟨1, 3, 0, [], [⟨6, 650000⟩]⟩), 2⟩, 0, false⟩


end ZTProof

namespace ZTProof

/-! ## Step lemmas for the probe loops and concrete stores -/

theorem table_data_mk (l : List (Slot E)) (n : Nat) : (⟨l, n⟩ : Table E).data = l := rfl

theorem table_size_mk (l : List (Slot E)) (n : Nat) : (⟨l, n⟩ : Table E).size = n := rfl

theorem findLoop_succ (data : List (Slot E)) (keq : E → Bool) (p fuel : Nat) :
    findLoop data keq p (fuel + 1) =
      match getSlot data p with
      | .occ e => if keq e then some p else findLoop data keq ((p + 1) % data.length) fuel
      | .dummy => findLoop data keq ((p + 1) % data.length) fuel
      | .free => none := rfl

theorem findLoop_free {data : List (Slot E)} {keq : E → Bool} {p : Nat}
    (h : getSlot data p = .free) (fuel : Nat) : findLoop data keq p (fuel + 1) = none := by
  rw [findLoop_succ, h]

theorem findLoop_occ {data : List (Slot E)} {keq : E → Bool} {p : Nat} {e : E}
    (h : getSlot data p = .occ e) (hk : keq e = true) (fuel : Nat) :
    findLoop data keq p (fuel + 1) = some p := by
  rw [findLoop_succ, h]
  simp [hk]

theorem findLoop_occ_false {data : List (Slot E)} {keq : E → Bool} {p : Nat} {e : E}
    (h : getSlot data p = .occ e) (hk : ¬ keq e = true) (fuel : Nat) :
    findLoop data keq p (fuel + 1) = findLoop data keq ((p + 1) % data.length) fuel := by
  rw [findLoop_succ, h]
  simp [hk]

theorem findLoop_dummy {data : List (Slot E)} {keq : E → Bool} {p : Nat}
    (h : getSlot data p = .dummy) (fuel : Nat) :
    findLoop data keq p (fuel + 1) = findLoop data keq ((p + 1) % data.length) fuel := by
  rw [findLoop_succ, h]

theorem setLoop_succ (data : List (Slot E)) (keq : E → Bool) (p fuel : Nat) :
    setLoop data keq p (fuel + 1) =
      match getSlot data p with
      | .occ e => if keq e then some none else setLoop data keq ((p + 1) % data.length) fuel
      | _ => some (some p) := rfl

theorem setLoop_free {data : List (Slot E)} {keq : E → Bool} {p : Nat}
    (h : getSlot data p = .free) (fuel : Nat) :
    setLoop data keq p (fuel + 1) = some (some p) := by
  rw [setLoop_succ, h]

theorem getSlot_set_self {data : List (Slot E)} {p : Nat} (s : Slot E)
    (h : p < data.length) : getSlot (data.set p s) p = s := by
  rw [getSlot, List.getD_eq_getElem?_getD, List.getElem?_set_self (by simpa using h)]
  rfl

theorem getSlot_set_ne {data : List (Slot E)} {p q : Nat} (s : Slot E)
    (h : p ≠ q) : getSlot (data.set p s) q = getSlot data q := by
  rw [getSlot, getSlot, List.getD_eq_getElem?_getD, List.getD_eq_getElem?_getD,
    List.getElem?_set_ne h]

theorem bigData_getSlot (p : Nat) :
    getSlot bigData p = if p < 1601 then Slot.occ ⟨1, p, 0, [], []⟩ else Slot.free := by
  rcases Nat.lt_or_ge p 2048 with h | h
  · rw [getSlot, bigData, List.getD_eq_getElem?_getD, List.getElem?_map,
      List.getElem?_range h]
    rfl
  · have h2 : ¬ p < 1601 := by omega
    rw [getSlot, bigData, List.getD_eq_getElem?_getD, List.getElem?_eq_none (by simpa using h)]
    simp [h2]

theorem bigData_length : bigData.length = 2048 := by
  simp [bigData]

/-! ## Slot-count and occList lemmas -/

theorem occList_cons_occ (e : E) (ds : List (Slot E)) :
    occList (.occ e :: ds) = e :: occList ds := rfl

theorem occList_cons_free (ds : List (Slot E)) : occList (.free :: ds) = occList ds := rfl

theorem occList_cons_dummy (ds : List (Slot E)) : occList (.dummy :: ds) = occList ds := rfl

theorem getSlot_cons_zero (s : Slot E) (ds : List (Slot E)) : getSlot (s :: ds) 0 = s := rfl

theorem getSlot_cons_succ (s : Slot E) (ds : List (Slot E)) (q : Nat) :
    getSlot (s :: ds) (q + 1) = getSlot ds q := rfl

theorem occCount_cons_occ (e : E) (ds : List (Slot E)) :
    occCount (.occ e :: ds) = occCount ds + 1 := by
  rw [occCount, occCount, occList_cons_occ, List.length_cons]

theorem occCount_cons_free (ds : List (Slot E)) : occCount (.free :: ds) = occCount ds := by
  rw [occCount, occCount, occList_cons_free]

theorem occCount_cons_dummy (ds : List (Slot E)) : occCount (.dummy :: ds) = occCount ds := by
  rw [occCount, occCount, occList_cons_dummy]

theorem dummyCount_cons_occ (e : E) (ds : List (Slot E)) :
    dummyCount (.occ e :: ds) = dummyCount ds := by
  simp [dummyCount, List.countP_cons]

theorem dummyCount_cons_free (ds : List (Slot E)) :
    dummyCount (.free :: ds) = dummyCount ds := by
  simp [dummyCount, List.countP_cons]

theorem dummyCount_cons_dummy (ds : List (Slot E)) :
    dummyCount (.dummy :: ds) = dummyCount ds + 1 := by
  simp [dummyCount, List.countP_cons]

theorem freeCount_cons_occ (e : E) (ds : List (Slot E)) :
    freeCount (.occ e :: ds) = freeCount ds := by
  simp [freeCount, List.countP_cons]

theorem freeCount_cons_free (ds : List (Slot E)) :
    freeCount (.free :: ds) = freeCount ds + 1 := by
  simp [freeCount, List.countP_cons]

theorem freeCount_cons_dummy (ds : List (Slot E)) :
    freeCount (.dummy :: ds) = freeCount ds := by
  simp [freeCount, List.countP_cons]

theorem count_partition (data : List (Slot E)) :
    occCount data + dummyCount data + freeCount data = data.length := by
  induction data with
  | nil => rfl
  | cons s ds ih =>
    cases s with
    | occ e =>
      rw [List.length_cons, occCount_cons_occ, dummyCount_cons_occ, freeCount_cons_occ]
      omega
    | free =>
      rw [List.length_cons, occCount_cons_free, dummyCount_cons_free, freeCount_cons_free]
      omega
    | dummy =>
      rw [List.length_cons, occCount_cons_dummy, dummyCount_cons_dummy, freeCount_cons_dummy]
      omega

theorem getSlot_of_getElem {data : List (Slot E)} {j : Nat} (hj : j < data.length) :
    getSlot data j = data.get ⟨j, hj⟩ := by
  rw [getSlot, List.getD_eq_getElem?_getD, List.getElem?_eq_getElem hj]
  rfl

theorem exists_free_slot (data : List (Slot E)) (hdum : dummyCount data = 0)
    (hocc : occCount data < data.length) :
    ∃ j, j < data.length ∧ getSlot data j = .free := by
  have hf : 0 < freeCount data := by
    have := count_partition data
    omega
  rw [freeCount, List.countP_pos_iff] at hf
  obtain ⟨s, hs, hps⟩ := hf
  have hsf : s = Slot.free := by
    cases s <;> simp_all
  subst hsf
  obtain ⟨j, hj, hje⟩ := List.getElem_of_mem hs
  exact ⟨j, hj, by rw [getSlot_of_getElem hj, List.get_eq_getElem, hje]⟩

theorem dummyCount_set_occ (e : E) :
    ∀ (data : List (Slot E)) (q : Nat), getSlot data q ≠ .dummy →
      dummyCount (data.set q (.occ e)) = dummyCount data := by
  intro data
  induction data with
  | nil => intro q _; rfl
  | cons s ds ih =>
    intro q hq
    cases q with
    | zero =>
      rw [getSlot_cons_zero] at hq
      cases s with
      | occ f => rw [List.set_cons_zero, dummyCount_cons_occ, dummyCount_cons_occ]
      | free => rw [List.set_cons_zero, dummyCount_cons_occ, dummyCount_cons_free]
      | dummy => exact absurd rfl hq
    | succ q =>
      rw [getSlot_cons_succ] at hq
      have ihq := ih q hq
      cases s with
      | occ f => rw [List.set_cons_succ, dummyCount_cons_occ, dummyCount_cons_occ, ihq]
      | free => rw [List.set_cons_succ, dummyCount_cons_free, dummyCount_cons_free, ihq]
      | dummy => rw [List.set_cons_succ, dummyCount_cons_dummy, dummyCount_cons_dummy, ihq]

theorem occList_set_free_perm (e : E) :
    ∀ (data : List (Slot E)) (q : Nat), q < data.length → getSlot data q = .free →
      (occList (data.set q (.occ e))).Perm (e :: occList data) := by
  intro data
  induction data with
  | nil => intro q hq _; simp at hq
  | cons s ds ih =>
    intro q hq hfree
    cases q with
    | zero =>
      have : s = .free := hfree
      subst this
      simp only [List.set_cons_zero, occList_cons_occ, occList_cons_free]
      exact List.Perm.refl _
    | succ q =>
      have hq2 : q < ds.length := by simpa using hq
      have hfree2 : getSlot ds q = .free := hfree
      have hperm := ih q hq2 hfree2
      cases s with
      | occ f =>
        simp only [List.set_cons_succ, occList_cons_occ]
        exact (hperm.cons f).trans (List.Perm.swap e f _)
      | free =>
        simpa only [List.set_cons_succ, occList_cons_free] using hperm
      | dummy =>
        simpa only [List.set_cons_succ, occList_cons_dummy] using hperm

theorem occList_set_occ_subset (e : E) :
    ∀ (data : List (Slot E)) (q : Nat) (x : E), x ∈ occList (data.set q (.occ e)) →
      x = e ∨ x ∈ occList data := by
  intro data
  induction data with
  | nil => intro q x hx; simp [occList] at hx
  | cons s ds ih =>
    intro q x hx
    cases q with
    | zero =>
      rw [List.set_cons_zero, occList_cons_occ] at hx
      rcases List.mem_cons.mp hx with h | h
      · exact Or.inl h
      · cases s with
        | occ f => exact Or.inr (by rw [occList_cons_occ]; exact List.mem_cons_of_mem _ h)
        | free => exact Or.inr (by rwa [occList_cons_free])
        | dummy => exact Or.inr (by rwa [occList_cons_dummy])
    | succ q =>
      rw [List.set_cons_succ] at hx
      cases s with
      | occ f =>
        rw [occList_cons_occ] at hx
        rcases List.mem_cons.mp hx with h | h
        · exact Or.inr (by rw [occList_cons_occ, h]; exact List.mem_cons_self _ _)
        · rcases ih q x h with h2 | h2
          · exact Or.inl h2
          · exact Or.inr (by rw [occList_cons_occ]; exact List.mem_cons_of_mem _ h2)
      | free =>
        rw [occList_cons_free] at hx
        rcases ih q x hx with h2 | h2
        · exact Or.inl h2
        · exact Or.inr (by rwa [occList_cons_free])
      | dummy =>
        rw [occList_cons_dummy] at hx
        rcases ih q x hx with h2 | h2
        · exact Or.inl h2
        · exact Or.inr (by rwa [occList_cons_dummy])

/-! ## Rehash and resize lemmas -/

theorem insertFreeLoop_succ (data : List (Slot E)) (p fuel : Nat) :
    insertFreeLoop data p (fuel + 1) =
      match getSlot data p with
      | .free => some p
      | _ => insertFreeLoop data ((p + 1) % data.length) fuel := rfl

theorem insertFreeLoop_spec (data : List (Slot E)) :
    ∀ (fuel p : Nat), p < data.length →
      (∃ i, i < fuel ∧ getSlot data ((p + i) % data.length) = .free) →
      ∃ q, insertFreeLoop data p fuel = some q ∧ q < data.length ∧
        getSlot data q = .free := by
  intro fuel
  induction fuel with
  | zero =>
    intro p _ h
    obtain ⟨i, hi, _⟩ := h
    omega
  | succ f ih =>
    intro p hp h
    obtain ⟨i, hi, hfree⟩ := h
    rw [insertFreeLoop_succ]
    cases hslot : getSlot data p with
    | free => exact ⟨p, rfl, hp, hslot⟩
    | dummy =>
      have hi0 : i ≠ 0 := by
        intro h0
        rw [h0, Nat.add_zero, Nat.mod_eq_of_lt hp, hslot] at hfree
        exact Slot.noConfusion hfree
      obtain ⟨i2, rfl⟩ := Nat.exists_eq_succ_of_ne_zero hi0
      obtain ⟨q, hq1, hq2, hq3⟩ := ih ((p + 1) % data.length)
        (Nat.mod_lt _ (by omega))
        ⟨i2, by omega, by
          rw [Nat.mod_add_mod]
          have : p + 1 + i2 = p + (i2 + 1) := by omega
          rw [this]
          exact hfree⟩
      exact ⟨q, hq1, hq2, hq3⟩
    | occ e =>
      have hi0 : i ≠ 0 := by
        intro h0
        rw [h0, Nat.add_zero, Nat.mod_eq_of_lt hp, hslot] at hfree
        exact Slot.noConfusion hfree
      obtain ⟨i2, rfl⟩ := Nat.exists_eq_succ_of_ne_zero hi0
      obtain ⟨q, hq1, hq2, hq3⟩ := ih ((p + 1) % data.length)
        (Nat.mod_lt _ (by omega))
        ⟨i2, by omega, by
          rw [Nat.mod_add_mod]
          have : p + 1 + i2 = p + (i2 + 1) := by omega
          rw [this]
          exact hfree⟩
      exact ⟨q, hq1, hq2, hq3⟩

theorem insertFreeLoop_finds (data : List (Slot E)) (p : Nat) (hp : p < data.length)
    (hdum : dummyCount data = 0) (hocc : occCount data < data.length) :
    ∃ q, insertFreeLoop data p data.length = some q ∧ q < data.length ∧
      getSlot data q = .free := by
  obtain ⟨j, hj, hjf⟩ := exists_free_slot data hdum hocc
  apply insertFreeLoop_spec data data.length p hp
  refine ⟨(j + data.length - p) % data.length, Nat.mod_lt _ (by omega), ?_⟩
  rw [Nat.add_mod_mod]
  have : p + (j + data.length - p) = j + data.length := by omega
  rw [this, Nat.add_mod_right, Nat.mod_eq_of_lt hj]
  exact hjf

theorem rehash_length (hashE : E → Nat) (n : Nat) :
    ∀ (ds acc : List (Slot E)), (ds.foldl (rehashInto hashE n) acc).length = acc.length := by
  intro ds
  induction ds with
  | nil => intro acc; rfl
  | cons s ds ih =>
    intro acc
    rw [List.foldl_cons, ih]
    cases s with
    | occ e =>
      show (match insertFreeLoop acc (hashE e % n) n with
        | some p => acc.set p (.occ e)
        | none => acc).length = acc.length
      cases insertFreeLoop acc (hashE e % n) n with
      | some p => exact List.length_set acc p _
      | none => rfl
    | free => rfl
    | dummy => rfl

theorem occList_nil : occList ([] : List (Slot E)) = [] := rfl

theorem rehashInto_free (hashE : E → Nat) (n : Nat) (acc : List (Slot E)) :
    rehashInto hashE n acc .free = acc := rfl

theorem rehashInto_dummy (hashE : E → Nat) (n : Nat) (acc : List (Slot E)) :
    rehashInto hashE n acc .dummy = acc := rfl

theorem rehashInto_occ (hashE : E → Nat) (n : Nat) (acc : List (Slot E)) (e : E) :
    rehashInto hashE n acc (.occ e) =
      match insertFreeLoop acc (hashE e % n) n with
      | some p => acc.set p (.occ e)
      | none => acc := rfl

theorem rehash_spec (hashE : E → Nat) (n : Nat) :
    ∀ (ds acc : List (Slot E)), acc.length = n → dummyCount acc = 0 →
      occCount acc + occCount ds ≤ n →
      dummyCount (ds.foldl (rehashInto hashE n) acc) = 0 ∧
      (occList (ds.foldl (rehashInto hashE n) acc)).Perm (occList acc ++ occList ds) := by
  intro ds
  induction ds with
  | nil =>
    intro acc _ hdum _
    rw [List.foldl_nil, occList_nil, List.append_nil]
    exact ⟨hdum, List.Perm.refl _⟩
  | cons s ds ih =>
    intro acc hlen hdum hocc
    rw [List.foldl_cons]
    cases s with
    | free =>
      rw [occCount_cons_free] at hocc
      rw [rehashInto_free, occList_cons_free]
      exact ih acc hlen hdum hocc
    | dummy =>
      rw [occCount_cons_dummy] at hocc
      rw [rehashInto_dummy, occList_cons_dummy]
      exact ih acc hlen hdum hocc
    | occ e =>
      rw [occCount_cons_occ] at hocc
      have hoccacc : occCount acc < n := by omega
      have hn0 : 0 < n := by omega
      have hplt : hashE e % n < acc.length := by
        rw [hlen]
        exact Nat.mod_lt _ hn0
      obtain ⟨q, hq1, hq2, hq3⟩ := insertFreeLoop_finds acc (hashE e % n) hplt hdum
        (by omega)
      rw [rehashInto_occ, show insertFreeLoop acc (hashE e % n) n =
        insertFreeLoop acc (hashE e % n) acc.length by rw [hlen], hq1]
      have hperm : (occList (acc.set q (.occ e))).Perm (e :: occList acc) :=
        occList_set_free_perm e acc q hq2 hq3
      have hlen2 : (acc.set q (.occ e)).length = n := by
        rw [List.length_set, hlen]
      have hdum2 : dummyCount (acc.set q (.occ e)) = 0 := by
        rw [dummyCount_set_occ e acc q (by rw [hq3]; exact fun h => Slot.noConfusion h)]
        exact hdum
      have hocc2 : occCount (acc.set q (.occ e)) = occCount acc + 1 := by
        rw [occCount, hperm.length_eq, List.length_cons, ← occCount]
      obtain ⟨ih1, ih2⟩ := ih (acc.set q (.occ e)) hlen2 hdum2 (by omega)
      refine ⟨ih1, ih2.trans ?_⟩
      rw [occList_cons_occ]
      refine (hperm.append_right _).trans ?_
      rw [List.cons_append]
      exact List.perm_middle.symm

theorem resize_length (hashE : E → Nat) (t : Table E) (n : Nat) :
    capacity (resize hashE t n) = n := by
  unfold resize capacity
  rw [table_data_mk, rehash_length, List.length_replicate]

theorem occList_replicate_free (n : Nat) :
    occList (List.replicate n (Slot.free : Slot E)) = [] := by
  induction n with
  | zero => rfl
  | succ n ih => rw [List.replicate_succ, occList_cons_free, ih]

theorem dummyCount_replicate_free (n : Nat) :
    dummyCount (List.replicate n (Slot.free : Slot E)) = 0 := by
  induction n with
  | zero => rfl
  | succ n ih => rw [List.replicate_succ, dummyCount_cons_free, ih]

theorem resize_spec (hashE : E → Nat) (t : Table E) (n : Nat)
    (h : occCount t.data ≤ n) :
    dummyCount (resize hashE t n).data = 0 ∧
    (occList (resize hashE t n).data).Perm (occList t.data) := by
  unfold resize
  rw [table_data_mk]
  obtain ⟨h1, h2⟩ := rehash_spec hashE n t.data (List.replicate n .free)
    (List.length_replicate n _) (dummyCount_replicate_free n)
    (by rw [occCount, occList_replicate_free]; simpa using h)
  refine ⟨h1, h2.trans ?_⟩
  rw [occList_replicate_free, List.nil_append]

theorem rehash_subset (hashE : E → Nat) (n : Nat) :
    ∀ (ds acc : List (Slot E)) (x : E), x ∈ occList (ds.foldl (rehashInto hashE n) acc) →
      x ∈ occList acc ∨ x ∈ occList ds := by
  intro ds
  induction ds with
  | nil => intro acc x hx; exact Or.inl hx
  | cons s ds ih =>
    intro acc x hx
    rw [List.foldl_cons] at hx
    cases s with
    | free =>
      rcases ih acc x hx with h | h
      · exact Or.inl h
      · exact Or.inr (by rwa [occList_cons_free])
    | dummy =>
      rcases ih acc x hx with h | h
      · exact Or.inl h
      · exact Or.inr (by rwa [occList_cons_dummy])
    | occ e =>
      rw [show rehashInto hashE n acc (.occ e) =
        (match insertFreeLoop acc (hashE e % n) n with
          | some p => acc.set p (.occ e)
          | none => acc) from rfl] at hx
      cases hloop : insertFreeLoop acc (hashE e % n) n with
      | none =>
        rw [hloop] at hx
        rcases ih acc x hx with h | h
        · exact Or.inl h
        · exact Or.inr (by rw [occList_cons_occ]; exact List.mem_cons_of_mem _ h)
      | some p =>
        rw [hloop] at hx
        rcases ih (acc.set p (.occ e)) x hx with h | h
        · rcases occList_set_occ_subset e acc p x h with h2 | h2
          · exact Or.inr (by rw [occList_cons_occ, h2]; exact List.mem_cons_self _ _)
          · exact Or.inl h2
        · exact Or.inr (by rw [occList_cons_occ]; exact List.mem_cons_of_mem _ h)

theorem resize_subset (hashE : E → Nat) (t : Table E) (n : Nat) (x : E)
    (hx : x ∈ occList (resize hashE t n).data) : x ∈ occList t.data := by
  unfold resize at hx
  rw [table_data_mk] at hx
  rcases rehash_subset hashE n t.data (List.replicate n .free) x hx with h | h
  · rw [occList_replicate_free] at h
    exact absurd h (List.not_mem_nil x)
  · exact h

theorem is_power_of_2_pow (k : Nat) : is_power_of_2 (2 ^ k) = true := by
  have hland : 2 ^ k &&& (2 ^ k - 1) = 0 := by
    apply Nat.eq_of_testBit_eq
    intro i
    rw [Nat.testBit_land]
    rcases eq_or_ne i k with rfl | h
    · simp [Nat.testBit_two_pow_sub_one]
    · simp [Nat.testBit_two_pow_of_ne (Ne.symm h)]
  have h2 : (2 : Nat) ^ k ≠ 0 := by positivity
  rw [is_power_of_2, hland]
  simp [h2]

/-! ## Claim theorems -/

/-- Claim C1.  The claim asserts that HashArray::set refuses to insert when
an equal live entry exists anywhere in the probe chain, even beyond a
tombstone, so that the table never holds two hash-and-compare-equal live
entries and find tracks insert/erase exactly.  The code stops probing at the
FIRST free-or-tombstone slot: after insert 8, insert 16 (same bucket),
erase 8, a second insert of 16 lands in the tombstone of 8 and returns true,
leaving two live entries equal to 16; erasing 16 once then still leaves a
live 16 for find, although 16 was (last) inserted and subsequently erased. -/
theorem c1_tombstone_duplicate :
    c1Table.2 = true ∧
    (occList c1Table.1.data).count 16 = 2 ∧
    Table.find (Table.erase c1Table.1 16 (· == 16)).1 16 (· == 16) = some 16 := by
  decide

/-- Claim C2.  Lookup does compare both the group MAC and the network id
(the two groups sharing MAC 77 are found as distinct states), but creating
the second group with the same MAC as the immediately previously created one
fires assert(last_mac != mg.mac()) in MGroups::getGroup, so creation does not
complete normally in a debug build. -/
theorem c2_assert_fires :
    (getGroup c2First 2 ⟨77, 0⟩).1.assertFailed = true ∧
    c2First.assertFailed = false ∧
    findGroup (getGroup c2First 2 ⟨77, 0⟩).1.groups 1 ⟨77, 0⟩ = some ⟨1, 77, 0, [], []⟩ ∧
    findGroup (getGroup c2First 2 ⟨77, 0⟩).1.groups 2 ⟨77, 0⟩ = some ⟨2, 77, 0, [], []⟩ := by
  decide

/-- Claim C3 counterexample.  With 1601 groups already tracked (above the
1600 ceiling), Multicaster::add still creates a new group-state entry,
because add calls getGroup before _add performs its ceiling check (and send
has no check at all): the store grows to 1602 entries and the new group is
findable. -/
theorem c3_counterexample :
    bigM.groups.size = 1601 ∧
    (Multicaster.add env0 bigM 5 1 ⟨1601, 0⟩ 42).groups.size = 1602 ∧
    findGroup (Multicaster.add env0 bigM 5 1 ⟨1601, 0⟩ 42).groups 1 ⟨1601, 0⟩ =
      some ⟨1, 1601, 0, [], []⟩ := by
  have h2048 : (2048 : Nat) = 2047 + 1 := by norm_num
  have hmod : (1601 : Nat) % 2048 = 1601 := by norm_num
  have hdata : bigM.groups.data = bigData := by simp only [bigM]
  have hcap : capacity bigM.groups = 2048 := by
    unfold capacity
    rw [hdata, bigData_length]
  have hfreeSlot : getSlot bigData 1601 = Slot.free := by
    rw [bigData_getSlot]
    norm_num
  have hfind : findGroup bigM.groups 1 ⟨1601, 0⟩ = none := by
    unfold findGroup Table.find findIdx
    rw [hcap, hdata, hmod, h2048, findLoop_free hfreeSlot]
  have hsize : bigM.groups.size = 1601 := by simp only [bigM]
  have hset : bigM.groups.set hashMGS 1601 (keyEq 1601 1) ⟨1, 1601, 0, [], []⟩ =
      (⟨bigData.set 1601 (.occ ⟨1, 1601, 0, [], []⟩), 1602⟩, true) := by
    unfold Table.set
    rw [hcap, hdata, hmod, h2048, setLoop_free hfreeSlot, hsize]
    show (grow hashMGS ⟨bigData.set 1601 (.occ ⟨1, 1601, 0, [], []⟩), 1601 + 1⟩, true) =
      (⟨bigData.set 1601 (.occ ⟨1, 1601, 0, [], []⟩), 1602⟩, true)
    have hcap2 : capacity (⟨bigData.set 1601 (.occ ⟨1, 1601, 0, [], []⟩), 1601 + 1⟩ :
        Table MulticastGroupStatus) = 2048 := by
      unfold capacity
      simp only [List.length_set]
      exact bigData_length
    unfold grow
    rw [hcap2]
    norm_num [Table.mk.injEq]
  have hgg : getGroup bigM 1 ⟨1601, 0⟩ =
      (⟨⟨bigData.set 1601 (.occ ⟨1, 1601, 0, [], []⟩), 1602⟩, 1601, false⟩,
        ⟨1, 1601, 0, [], []⟩) := by
    unfold getGroup
    rw [hfind]
    show (let af := bigM.assertFailed || (bigM.last_mac == 1601)
      let gs : MulticastGroupStatus := ⟨1, 1601, 0, [], []⟩
      let r := bigM.groups.set hashMGS 1601 (keyEq 1601 1) gs
      ((⟨r.1, 1601, af || !r.2⟩ : Multicaster), gs)) = _
    simp only [hset]
    simp [bigM]
  have hadd : Multicaster.add env0 bigM 5 1 ⟨1601, 0⟩ 42 =
      ⟨⟨bigData.set 1601 (.occ ⟨1, 1601, 0, [], []⟩), 1602⟩, 1601, false⟩ := by
    unfold Multicaster.add Multicaster._add
    rw [hgg]
    norm_num
  refine ⟨hsize, ?_, ?_⟩
  · rw [hadd]
  · rw [hadd]
    have hcap2 : capacity (⟨bigData.set 1601 (.occ ⟨1, 1601, 0, [], []⟩), 1602⟩ :
        Table MulticastGroupStatus) = 2048 := by
      unfold capacity
      simp only [List.length_set]
      exact bigData_length
    have hocc : getSlot (bigData.set 1601 (.occ ⟨1, 1601, 0, [], []⟩)) 1601 =
        .occ ⟨1, 1601, 0, [], []⟩ := by
      apply getSlot_set_self
      rw [bigData_length]
      norm_num
    unfold findGroup Table.find findIdx
    simp only [table_data_mk]
    rw [hcap2, hmod, h2048, findLoop_occ hocc (by rfl)]
    simp only [hocc]


/-- Claim C3, amended: the ceiling is enforced only by addMultiple's entry
guard and by _add's member-insertion guard, and only once the group count
exceeds 1600: both then return with the state unchanged (silent refusal);
gather never creates a group; add and send still create a group-state entry
on a miss regardless of the ceiling. -/
theorem c3_amended (env : Env) (m : Multicaster) (now nwid : Nat)
    (mg : MulticastGroup) (bs : List Nat) (count member : Nat)
    (h : 1600 < m.groups.size) :
    Multicaster.addMultiple env m now nwid mg bs count = m ∧
    Multicaster._add env m now nwid mg member = m := by
  constructor
  · simp [Multicaster.addMultiple, h]
  · simp [Multicaster._add, h]

/-- Witness for c3_amended at the concrete over-ceiling store. -/
theorem c3_amended_witness :
    Multicaster.addMultiple env0 bigM 5 1 ⟨7, 0⟩ [] 0 = bigM ∧
    Multicaster._add env0 bigM 5 1 ⟨7, 0⟩ 42 = bigM :=
  c3_amended env0 bigM 5 1 ⟨7, 0⟩ [] 0 42 (by decide)

/-- Claim C4.  The claim (and the gather doc comment in Multicaster.hpp) says
a gather with limit 0 still appends the 6-byte count header.  The code
returns 0 before appending anything: for every state and packet the result
is the unmodified packet. -/
theorem c4_limit_zero_no_header (env : Env) (m : Multicaster) (q nwid : Nat)
    (mg : MulticastGroup) (pkt : Packet) :
    Multicaster.gather env m q nwid mg pkt 0 = (pkt, 0) := rfl

theorem resize_size (hashE : E → Nat) (t : Table E) (n : Nat) :
    (resize hashE t n).size = t.size := rfl

theorem set_capacity (t : Table E) (hashE : E → Nat) (hk : Nat) (keq : E → Bool) (v : E) :
    capacity (t.set hashE hk keq v).1 = capacity t ∨
    capacity (t.set hashE hk keq v).1 = 2 * capacity t := by
  unfold Table.set
  cases hl : setLoop t.data keq (hk % capacity t) (capacity t) with
  | none => left; rfl
  | some o =>
    cases o with
    | none => left; rfl
    | some p =>
      have hc : capacity (⟨t.data.set p (.occ v), t.size + 1⟩ : Table E) = capacity t := by
        unfold capacity
        rw [table_data_mk, List.length_set]
      show capacity (grow hashE ⟨t.data.set p (.occ v), t.size + 1⟩) = capacity t ∨
        capacity (grow hashE ⟨t.data.set p (.occ v), t.size + 1⟩) = 2 * capacity t
      unfold grow
      split
      · right
        rw [resize_length, hc]
        ring
      · left
        exact hc

theorem erase_capacity (t : Table E) (hk : Nat) (keq : E → Bool) :
    capacity (t.erase hk keq).1 = capacity t := by
  unfold Table.erase
  cases hl : eraseLoop t.data keq (hk % capacity t) (capacity t) with
  | none => rfl
  | some p =>
    show capacity (⟨t.data.set p .dummy, t.size - 1⟩ : Table E) = capacity t
    unfold capacity
    rw [table_data_mk, List.length_set]

theorem compact_capacity (hashE : E → Nat) (t : Table E) :
    (8 < capacity t ∧ t.size < capacity t / 2 ∧
      capacity (t.compact hashE) = capacity t / 2) ∨
    t.compact hashE = t := by
  unfold Table.compact shrink
  split
  · next h => exact Or.inl ⟨h.1, h.2, by rw [resize_length]⟩
  · exact Or.inr rfl

theorem applyOp_capacity_inv (t : Table E) (op : HOp E)
    (h : ∃ k, capacity t = 2 ^ k ∧ 8 ≤ capacity t) :
    ∃ k, capacity (applyOp t op) = 2 ^ k ∧ 8 ≤ capacity (applyOp t op) := by
  obtain ⟨k, hk, h8⟩ := h
  cases op with
  | hset hashE hk2 keq v =>
    rw [show applyOp t (.hset hashE hk2 keq v) = (t.set hashE hk2 keq v).1 from rfl]
    rcases set_capacity t hashE hk2 keq v with hc | hc
    · exact ⟨k, by rw [hc, hk], by rw [hc]; exact h8⟩
    · exact ⟨k + 1, by rw [hc, hk]; ring, by rw [hc]; omega⟩
  | herase hk2 keq =>
    rw [show applyOp t (.herase hk2 keq) = (t.erase hk2 keq).1 from rfl, erase_capacity]
    exact ⟨k, hk, h8⟩
  | hcompact hashE =>
    rw [show applyOp t (.hcompact hashE) = t.compact hashE from rfl]
    rcases compact_capacity hashE t with ⟨h8b, _, hc⟩ | hc
    · have hk4 : 4 ≤ k := by
        by_contra hlt
        push_neg at hlt
        have hle : (2 : Nat) ^ k ≤ 2 ^ 3 := Nat.pow_le_pow_right (by omega) (by omega)
        have h83 : (2 : Nat) ^ 3 = 8 := by norm_num
        omega
      have hsplit : (2 : Nat) ^ k = 2 ^ (k - 1) * 2 := by
        rw [← pow_succ]
        congr 1
        omega
      have h8half : (8 : Nat) ≤ 2 ^ (k - 1) := by
        calc (8 : Nat) = 2 ^ 3 := by norm_num
          _ ≤ 2 ^ (k - 1) := Nat.pow_le_pow_right (by omega) (by omega)
      refine ⟨k - 1, ?_, ?_⟩
      · rw [hc, hk, hsplit]
        omega
      · rw [hc, hk, hsplit]
        omega
    · rw [hc]
      exact ⟨k, hk, h8⟩

theorem foldl_capacity_inv (ops : List (HOp E)) :
    ∀ t : Table E, (∃ k, capacity t = 2 ^ k ∧ 8 ≤ capacity t) →
      ∃ k, capacity (ops.foldl applyOp t) = 2 ^ k ∧ 8 ≤ capacity (ops.foldl applyOp t) := by
  induction ops with
  | nil => intro t h; exact h
  | cons op ops ih =>
    intro t h
    rw [List.foldl_cons]
    exact ih _ (applyOp_capacity_inv t op h)

/-- Claim C9.  After every sequence of set, erase and compact operations,
starting from the freshly constructed table, the capacity is a power of two
(by the table's own is_power_of_2 test) and at least the min_capacity floor
of 8: the constructor resizes to 8, grow doubles, and shrink halves only when
the capacity exceeds 8, so the invariant is preserved by every operation. -/
theorem c9_capacity_invariant {E : Type} (ops : List (HOp E)) :
    is_power_of_2 (capacity (ops.foldl applyOp initTable)) = true ∧
    8 ≤ capacity (ops.foldl applyOp initTable) := by
  have hinit : ∃ k, capacity (initTable : Table E) = 2 ^ k ∧
      8 ≤ capacity (initTable : Table E) := by
    refine ⟨3, ?_, ?_⟩
    · rw [initTable, resize_length]
      norm_num
    · rw [initTable, resize_length]
  obtain ⟨k, hk, h8⟩ := foldl_capacity_inv ops initTable hinit
  exact ⟨by rw [hk]; exact is_power_of_2_pow k, h8⟩

/-- Claim C8 counterexample.  The claim says one compact() call reaches the
smallest power-of-two capacity over the floor with load under 50%.  On the
table built by inserting keys 0..14 (capacity 32) and erasing 0..12 (2 live
entries), that smallest capacity is 8 (8 meets the floor and 2 < 8/2 = 4),
but a single compact() only halves once, to 16; a second call is needed to
reach 8. -/
theorem c8_counterexample :
    capacity c8Table = 32 ∧ c8Table.size = 2 ∧
    capacity (Table.compact id c8Table) = 16 ∧
    c8Table.size < 8 / 2 ∧
    capacity (Table.compact id (Table.compact id c8Table)) = 8 := by
  decide

/-- Claim C8, amended: a single compact() call halves the capacity at most
once: when the capacity exceeds the floor 8 and the live load is under 50%,
it rehashes into half the capacity, reclaiming every tombstone (no dummy
slot remains) while preserving the live entries (as a permutation) and the
size; otherwise it leaves the table unchanged (tombstones included).
Reaching the smallest admissible capacity can take repeated calls. -/
theorem c8_amended {E : Type} (hashE : E → Nat) (t : Table E)
    (hwf : t.size = occCount t.data) :
    (8 < capacity t ∧ t.size < capacity t / 2 →
      capacity (t.compact hashE) = capacity t / 2 ∧
      dummyCount (t.compact hashE).data = 0 ∧
      (occList (t.compact hashE).data).Perm (occList t.data) ∧
      (t.compact hashE).size = t.size) ∧
    (¬(8 < capacity t ∧ t.size < capacity t / 2) → t.compact hashE = t) := by
  constructor
  · intro h
    unfold Table.compact shrink
    rw [if_pos h]
    obtain ⟨hd, hp⟩ := resize_spec hashE t (capacity t / 2) (by omega)
    exact ⟨resize_length hashE t _, hd, hp, resize_size hashE t _⟩
  · intro h
    unfold Table.compact shrink
    rw [if_neg h]

/-! ## Byte-layout and gather-loop lemmas -/

theorem encode40_length (a : Nat) : (encode40 a).length = ZT_ADDRESS_LENGTH := rfl

theorem encode32_length (v : Nat) : (encode32 v).length = 4 := rfl

theorem encode16_length (v : Nat) : (encode16 v).length = 2 := rfl

theorem decode16_encode16 (v : Nat) (h : v < 65536) : decode16 (encode16 v) = v := by
  show (v / 256 % 256) * 256 + v % 256 = v
  have h1 : v / 256 < 256 := by omega
  rw [Nat.mod_eq_of_lt h1]
  omega

theorem append_drop_len (xs ys : List Nat) : (xs ++ ys).drop xs.length = ys := by
  induction xs with
  | nil => rfl
  | cons x xs ih => simp [ih]

theorem append_take_len (xs ys : List Nat) : (xs ++ ys).take xs.length = xs := by
  induction xs with
  | nil => rfl
  | cons x xs ih => simp [ih]

theorem append_drop_add (xs ys : List Nat) (n : Nat) :
    (xs ++ ys).drop (xs.length + n) = ys.drop n := by
  induction xs with
  | nil => simp
  | cons x xs ih =>
    rw [List.cons_append, List.length_cons,
      show xs.length + 1 + n = (xs.length + n) + 1 by omega, List.drop_succ_cons]
    exact ih

theorem setBytes_append (xs ys vals : List Nat) :
    setBytes (xs ++ ys) xs.length vals = xs ++ (vals ++ ys.drop vals.length) := by
  rw [setBytes, append_take_len, append_drop_add, List.append_assoc]

theorem header_rewrite (T tail : List Nat) (tk ad : Nat) :
    setBytes (setBytes (T ++ (List.replicate 4 0 ++ (List.replicate 2 0 ++ tail)))
        T.length (encode32 tk))
      (T.length + 4) (encode16 ad) =
      T ++ (encode32 tk ++ (encode16 ad ++ tail)) := by
  rw [setBytes_append, encode32_length]
  have hdrop : (List.replicate 4 (0 : Nat) ++ (List.replicate 2 0 ++ tail)).drop 4 =
      List.replicate 2 0 ++ tail := by
    simp
  rw [hdrop,
    show T ++ (encode32 tk ++ (List.replicate 2 0 ++ tail)) =
      (T ++ encode32 tk) ++ (List.replicate 2 0 ++ tail) from
      (List.append_assoc _ _ _).symm,
    show T.length + 4 = (T ++ encode32 tk).length by
      rw [List.length_append, encode32_length],
    setBytes_append, encode16_length]
  have hdrop2 : (List.replicate 2 (0 : Nat) ++ tail).drop 2 = tail := by
    simp
  rw [hdrop2, List.append_assoc]

theorem gatherLoop_succ (prng : Nat → Nat) (members : List MulticastGroupMember)
    (q limit fuel : Nat) (picked bytes : List Nat) (added c : Nat) :
    gatherLoop prng members q limit (fuel + 1) picked bytes added c =
      if added < limit ∧ picked.length < members.length ∧
          bytes.length + ZT_ADDRESS_LENGTH ≤ ZT_UDP_DEFAULT_PAYLOAD_MTU then
        match scanPick members picked (prng c) members.length with
        | none => (bytes, added)
        | some a =>
          if q ≠ a then
            gatherLoop prng members q limit fuel (picked ++ [a]) (bytes ++ encode40 a)
              (added + 1) (c + 1)
          else gatherLoop prng members q limit fuel (picked ++ [a]) bytes added (c + 1)
      else (bytes, added) := rfl

/-- Everything the member-sampling loop of gather appends is a block of
5-byte addresses, none of which is the querying peer; the appended count
tracks the appended blocks exactly, never passes the limit, and the packet
never grows past the MTU once it is below it. -/
theorem gatherLoop_spec (prng : Nat → Nat) (members : List MulticastGroupMember)
    (q limit : Nat) :
    ∀ (fuel : Nat) (picked bytes : List Nat) (added c : Nat),
      ∃ new : List Nat,
        (gatherLoop prng members q limit fuel picked bytes added c).1 =
          bytes ++ (new.map encode40).flatten ∧
        (gatherLoop prng members q limit fuel picked bytes added c).2 =
          added + new.length ∧
        (∀ a ∈ new, q ≠ a) ∧
        (added ≤ limit → added + new.length ≤ limit) ∧
        (gatherLoop prng members q limit fuel picked bytes added c).1.length ≤
          max bytes.length ZT_UDP_DEFAULT_PAYLOAD_MTU := by
  intro fuel
  induction fuel with
  | zero =>
    intro picked bytes added c
    exact ⟨[], by simp [gatherLoop], by simp [gatherLoop], by simp, by simp,
      by simp [gatherLoop, Nat.le_max_left]⟩
  | succ f ih =>
    intro picked bytes added c
    rw [gatherLoop_succ]
    by_cases hguard : added < limit ∧ picked.length < members.length ∧
        bytes.length + ZT_ADDRESS_LENGTH ≤ ZT_UDP_DEFAULT_PAYLOAD_MTU
    · rw [if_pos hguard]
      cases hscan : scanPick members picked (prng c) members.length with
      | none =>
        exact ⟨[], by simp, by simp, by simp, by simp, by simp [Nat.le_max_left]⟩
      | some a =>
        simp only []
        by_cases hqa : q ≠ a
        · rw [if_pos hqa]
          obtain ⟨new, h1, h2, h3, h4, h5⟩ :=
            ih (picked ++ [a]) (bytes ++ encode40 a) (added + 1) (c + 1)
          refine ⟨a :: new, ?_, ?_, ?_, ?_, ?_⟩
          · rw [h1, List.map_cons, List.flatten_cons, List.append_assoc]
          · rw [h2, List.length_cons]
            omega
          · intro x hx
            rcases List.mem_cons.mp hx with rfl | hx2
            · exact hqa
            · exact h3 x hx2
          · intro _
            have h6 := h4 (by omega)
            rw [List.length_cons]
            omega
          · refine h5.trans ?_
            rw [List.length_append, encode40_length, Nat.max_eq_right hguard.2.2]
            exact Nat.le_max_right _ _
        · rw [if_neg hqa]
          exact ih (picked ++ [a]) bytes added (c + 1)
    · rw [if_neg hguard]
      exact ⟨[], by simp, by simp, by simp, by simp, by simp [Nat.le_max_left]⟩

theorem header_rewrite_flat (T tail : List Nat) (tk ad : Nat) :
    setBytes (setBytes (T ++ List.replicate 4 0 ++ List.replicate 2 0 ++ tail)
        T.length (encode32 tk))
      ((T ++ List.replicate 4 0).length) (encode16 ad) =
      T ++ (encode32 tk ++ (encode16 ad ++ tail)) := by
  have hassoc : T ++ List.replicate 4 0 ++ List.replicate 2 0 ++ tail =
      T ++ (List.replicate 4 0 ++ (List.replicate 2 0 ++ tail)) := by
    simp [List.append_assoc]
  have hpos : (T ++ List.replicate 4 0).length = T.length + 4 := by simp
  rw [hassoc, hpos, header_rewrite]

theorem header_rewrite_notail (T : List Nat) (tk ad : Nat) :
    setBytes (setBytes (T ++ List.replicate 4 0 ++ List.replicate 2 0)
        T.length (encode32 tk))
      ((T ++ List.replicate 4 0).length) (encode16 ad) =
      T ++ (encode32 tk ++ (encode16 ad ++ [])) := by
  have hnil : T ++ List.replicate 4 0 ++ List.replicate 2 0 =
      T ++ List.replicate 4 0 ++ List.replicate 2 0 ++ [] := by simp
  rw [hnil, header_rewrite_flat]

/-- Shape of a gather result with a nonzero limit: the packet grows by the
4-byte total-known field, the 2-byte appended-count field, the local address
when the local node subscribes, and a block of sampled member addresses none
of which is the querying peer; the appended count is bounded by the clamped
limit, and the sampling respects the MTU. -/
theorem gather_shape (env : Env) (m : Multicaster) (q nwid : Nat)
    (mg : MulticastGroup) (appendTo : Packet) (limit : Nat) (h : limit ≠ 0) :
    ∃ (new : List Nat) (tk : Nat),
      (∀ a ∈ new, q ≠ a) ∧
      (Multicaster.gather env m q nwid mg appendTo limit).2 =
        (if env.subscribed nwid mg then 1 else 0) + new.length ∧
      (Multicaster.gather env m q nwid mg appendTo limit).2 ≤ min limit 0xffff ∧
      (Multicaster.gather env m q nwid mg appendTo limit).1.bytes =
        appendTo.bytes ++ (encode32 tk ++
          (encode16 ((Multicaster.gather env m q nwid mg appendTo limit).2) ++
          ((if env.subscribed nwid mg then encode40 env.localAddress else []) ++
            (new.map encode40).flatten))) ∧
      tk = (if env.subscribed nwid mg then 1 else 0) +
        (match findGroup m.groups nwid mg with
          | some gs => if gs.members.isEmpty then 0 else gs.members.length
          | none => 0) ∧
      (Multicaster.gather env m q nwid mg appendTo limit).1.bytes.length ≤
        max (appendTo.bytes.length + 6 +
            (if env.subscribed nwid mg then ZT_ADDRESS_LENGTH else 0))
          ZT_UDP_DEFAULT_PAYLOAD_MTU := by
  have hlim1 : 1 ≤ min limit 0xffff := by
    have h1 : 1 ≤ limit := by omega
    omega
  unfold Multicaster.gather
  rw [if_neg h]
  simp only []
  cases hsub : env.subscribed nwid mg with
  | false =>
    simp only [hsub, Bool.false_eq_true, if_false]
    cases hfg : findGroup m.groups nwid mg with
    | none =>
      simp only []
      refine ⟨[], 0, by simp, by simp, by simp, ?_, by simp, ?_⟩
      · rw [header_rewrite_notail]
        simp
      · rw [header_rewrite_notail]
        have hgl : (appendTo.bytes ++ (encode32 0 ++ (encode16 0 ++ []))).length =
            appendTo.bytes.length + 6 + 0 := by
          simp only [List.length_append, encode32_length, encode16_length,
            List.length_nil]
        rw [hgl]
        exact Nat.le_max_left _ _
    | some gs =>
      cases hemp : gs.members.isEmpty with
      | true =>
        simp only [hemp, if_true]
        refine ⟨[], 0, by simp, by simp, by simp, ?_, by simp, ?_⟩
        · rw [header_rewrite_notail]
          simp
        · rw [header_rewrite_notail]
          have hgl : (appendTo.bytes ++ (encode32 0 ++ (encode16 0 ++ []))).length =
              appendTo.bytes.length + 6 + 0 := by
            simp only [List.length_append, encode32_length, encode16_length,
              List.length_nil]
          rw [hgl]
          exact Nat.le_max_left _ _
      | false =>
        simp only [hemp, Bool.false_eq_true, if_false]
        obtain ⟨new, hl1, hl2, hl3, hl4, hl5⟩ :=
          gatherLoop_spec env.prng gs.members q (min limit 0xffff) gs.members.length
            [] (appendTo.bytes ++ List.replicate 4 0 ++ List.replicate 2 0) 0 0
        have hb3len : (appendTo.bytes ++ List.replicate 4 0 ++
            List.replicate 2 0).length = appendTo.bytes.length + 6 := by simp
        refine ⟨new, 0 + gs.members.length, hl3, by rw [hl2], ?_, ?_, by simp, ?_⟩
        · rw [hl2]
          have h6 := hl4 (by omega)
          omega
        · rw [hl1, header_rewrite_flat]
          simp
        · rw [hl1, header_rewrite_flat]
          rw [hl1, List.length_append, hb3len] at hl5
          have hgl : (appendTo.bytes ++ (encode32 (0 + gs.members.length) ++
              (encode16 ((gatherLoop env.prng gs.members q (min limit 0xffff)
                  gs.members.length []
                  (appendTo.bytes ++ List.replicate 4 0 ++ List.replicate 2 0) 0 0).2) ++
              (new.map encode40).flatten))).length =
              appendTo.bytes.length + 6 + ((new.map encode40).flatten).length := by
            simp only [List.length_append, encode32_length, encode16_length]
            omega
          rw [hgl]
          have hmax : appendTo.bytes.length + 6 + 0 = appendTo.bytes.length + 6 := by
            omega
          rw [hmax]
          exact hl5
  | true =>
    simp only [hsub, if_true]
    cases hfg : findGroup m.groups nwid mg with
    | none =>
      simp only []
      refine ⟨[], 1, by simp, by simp, by simpa using hlim1, ?_, by simp, ?_⟩
      · rw [header_rewrite_flat]
        simp
      · rw [header_rewrite_flat]
        have hgl : (appendTo.bytes ++ (encode32 1 ++ (encode16 1 ++
            encode40 env.localAddress))).length =
            appendTo.bytes.length + 6 + ZT_ADDRESS_LENGTH := by
          simp only [List.length_append, encode32_length, encode16_length,
            encode40_length]
          omega
        rw [hgl]
        exact Nat.le_max_left _ _
    | some gs =>
      cases hemp : gs.members.isEmpty with
      | true =>
        simp only [hemp, if_true]
        refine ⟨[], 1, by simp, by simp, by simpa using hlim1, ?_, by simp, ?_⟩
        · rw [header_rewrite_flat]
          simp
        · rw [header_rewrite_flat]
          have hgl : (appendTo.bytes ++ (encode32 1 ++ (encode16 1 ++
              encode40 env.localAddress))).length =
              appendTo.bytes.length + 6 + ZT_ADDRESS_LENGTH := by
            simp only [List.length_append, encode32_length, encode16_length,
              encode40_length]
            omega
          rw [hgl]
          exact Nat.le_max_left _ _
      | false =>
        simp only [hemp, Bool.false_eq_true, if_false]
        obtain ⟨new, hl1, hl2, hl3, hl4, hl5⟩ :=
          gatherLoop_spec env.prng gs.members q (min limit 0xffff) gs.members.length
            [] (appendTo.bytes ++ List.replicate 4 0 ++ List.replicate 2 0 ++
              encode40 env.localAddress) 1 0
        have hb3len : (appendTo.bytes ++ List.replicate 4 0 ++ List.replicate 2 0 ++
            encode40 env.localAddress).length =
            appendTo.bytes.length + 6 + ZT_ADDRESS_LENGTH := by
          simp only [List.length_append, encode40_length]
          simp
        refine ⟨new, 1 + gs.members.length, hl3, by rw [hl2], ?_, ?_, by simp, ?_⟩
        · rw [hl2]
          have h6 := hl4 hlim1
          omega
        · rw [hl1, List.append_assoc, header_rewrite_flat]
        · rw [hl1, List.append_assoc, header_rewrite_flat]
          rw [hl1, List.length_append, hb3len] at hl5
          have hgl : (appendTo.bytes ++ (encode32 (1 + gs.members.length) ++
              (encode16 ((gatherLoop env.prng gs.members q (min limit 0xffff)
                  gs.members.length []
                  (appendTo.bytes ++ List.replicate 4 0 ++ List.replicate 2 0 ++
                    encode40 env.localAddress) 1 0).2) ++
              (encode40 env.localAddress ++ (new.map encode40).flatten)))).length =
              appendTo.bytes.length + 6 + ZT_ADDRESS_LENGTH +
                ((new.map encode40).flatten).length := by
            simp only [List.length_append, encode32_length, encode16_length,
              encode40_length]
            omega
          rw [hgl]
          exact hl5

/-- Witness for c8_amended at the concrete capacity-32 table with 2 live
entries. -/
theorem c8_amended_witness :
    capacity (Table.compact id c8Table) = capacity c8Table / 2 ∧
    dummyCount (Table.compact id c8Table).data = 0 ∧
    (occList (Table.compact id c8Table).data).Perm (occList c8Table.data) ∧
    (Table.compact id c8Table).size = c8Table.size :=
  (c8_amended id c8Table (by decide)).1 (by decide)

theorem flatten_encode40_length (new : List Nat) :
    ((new.map encode40).flatten).length = 5 * new.length := by
  induction new with
  | nil => rfl
  | cons a new ih =>
    rw [List.map_cons, List.flatten_cons, List.length_append, ih, encode40_length,
      List.length_cons]
    simp [ZT_ADDRESS_LENGTH]
    omega

/-- Claim C5 counterexample.  When the local node itself subscribes to the
group and is also the querying peer (address 42), gather still appends the
local address first: the appended address list contains the requester, which
the claim forbids. -/
theorem c5_counterexample :
    cEnv.localAddress = 42 ∧
    (Multicaster.gather cEnv m0 42 9 ⟨5, 0⟩ ⟨[]⟩ 1).1.bytes =
      [0, 0, 0, 1, 0, 1] ++ encode40 42 ∧
    ((Multicaster.gather cEnv m0 42 9 ⟨5, 0⟩ ⟨[]⟩ 1).1.bytes.drop 6).take 5 =
      encode40 42 := by
  decide

/-- Claim C5, amended: the requester's address is never appended by the
random member-sampling phase, and when the requester is a member it is still
counted in the 4-byte total-known count (total-known is the member count plus
one when the local node subscribes); however, when the local node subscribes
to the group, its own address is appended first even when the local node is
the requester. -/
theorem c5_amended (env : Env) (m : Multicaster) (q nwid : Nat)
    (mg : MulticastGroup) (appendTo : Packet) (limit : Nat) (h : limit ≠ 0) :
    ∃ (new : List Nat) (tk : Nat),
      (Multicaster.gather env m q nwid mg appendTo limit).1.bytes =
        appendTo.bytes ++ (encode32 tk ++
          (encode16 ((Multicaster.gather env m q nwid mg appendTo limit).2) ++
          ((if env.subscribed nwid mg then encode40 env.localAddress else []) ++
            (new.map encode40).flatten))) ∧
      (∀ a ∈ new, q ≠ a) ∧
      (∀ gs, findGroup m.groups nwid mg = some gs → gs.members.isEmpty = false →
        tk = (if env.subscribed nwid mg then 1 else 0) + gs.members.length) := by
  obtain ⟨new, tk, h1, _, _, h4, h5, _⟩ := gather_shape env m q nwid mg appendTo limit h
  refine ⟨new, tk, h4, h1, ?_⟩
  intro gs hgs hemp
  rw [hgs] at h5
  simp only [hemp, Bool.false_eq_true, if_false] at h5
  exact h5

/-- Witness for c5_amended at a concrete state. -/
theorem c5_amended_witness :
    ∃ (new : List Nat) (tk : Nat),
      (Multicaster.gather cEnv m0 42 9 ⟨5, 0⟩ ⟨[]⟩ 1).1.bytes =
        (⟨[]⟩ : Packet).bytes ++ (encode32 tk ++
          (encode16 ((Multicaster.gather cEnv m0 42 9 ⟨5, 0⟩ ⟨[]⟩ 1).2) ++
          ((if cEnv.subscribed 9 ⟨5, 0⟩ then encode40 cEnv.localAddress else []) ++
            (new.map encode40).flatten))) ∧
      (∀ a ∈ new, 42 ≠ a) ∧
      (∀ gs, findGroup m0.groups 9 ⟨5, 0⟩ = some gs → gs.members.isEmpty = false →
        tk = (if cEnv.subscribed 9 ⟨5, 0⟩ then 1 else 0) + gs.members.length) :=
  c5_amended cEnv m0 42 9 ⟨5, 0⟩ ⟨[]⟩ 1 (by decide)

/-- Claim C10 counterexample.  The MTU bound is not applied to the initial
self append: with 1434 bytes already in the packet (so that even the first
appended address crosses the 1444-byte MTU), a gather from a subscribed
local node still appends the local address, growing the packet to 1445
bytes. -/
theorem c10_counterexample :
    ZT_UDP_DEFAULT_PAYLOAD_MTU = 1444 ∧
    ZT_UDP_DEFAULT_PAYLOAD_MTU < bigPkt.bytes.length + 6 + ZT_ADDRESS_LENGTH ∧
    (Multicaster.gather cEnv2 m0 9 1 ⟨5, 0⟩ bigPkt 5).1.bytes.length = 1445 ∧
    (Multicaster.gather cEnv2 m0 9 1 ⟨5, 0⟩ bigPkt 5).1.bytes.drop 1440 =
      encode40 77 := by
  have hfg : findGroup m0.groups 1 ⟨5, 0⟩ = none := by decide
  have hpkt : Multicaster.gather cEnv2 m0 9 1 ⟨5, 0⟩ bigPkt 5 =
      (⟨bigPkt.bytes ++ (encode32 1 ++ (encode16 1 ++ encode40 77))⟩, 1) := by
    unfold Multicaster.gather
    rw [if_neg (by norm_num)]
    simp only []
    rw [show cEnv2.subscribed 1 ⟨5, 0⟩ = true from rfl, if_pos rfl, hfg]
    simp only []
    rw [show cEnv2.localAddress = 77 from rfl, header_rewrite_flat]
    norm_num
  have hlen : bigPkt.bytes.length = 1434 := by
    simp only [bigPkt]
    rw [List.length_replicate]
  refine ⟨rfl, ?_, ?_, ?_⟩
  · rw [hlen]
    norm_num [ZT_UDP_DEFAULT_PAYLOAD_MTU, ZT_ADDRESS_LENGTH]
  · rw [hpkt]
    simp only [List.length_append, encode32_length, encode16_length, encode40_length,
      hlen]
    norm_num [ZT_ADDRESS_LENGTH]
  · rw [hpkt]
    show (bigPkt.bytes ++ (encode32 1 ++ (encode16 1 ++ encode40 77))).drop 1440 =
      encode40 77
    rw [show (1440 : Nat) = bigPkt.bytes.length + 6 by rw [hlen], append_drop_add]
    rw [show (6 : Nat) = (encode32 1).length + 2 by rw [encode32_length], append_drop_add]
    rw [show (2 : Nat) = (encode16 1).length from (encode16_length 1).symm, append_drop_len]

/-- Claim C10, amended: the appended-address count never exceeds the
requested limit nor 65535 (the limit is clamped to 0xffff first), the 16-bit
appended-count field always holds the exact number of appended addresses (no
modular truncation), and the MTU ceiling bounds the member-sampling phase:
the packet never grows past the MTU beyond the fixed 6-byte header and the
initial local-node self append, which is not MTU-checked. -/
theorem c10_amended (env : Env) (m : Multicaster) (q nwid : Nat)
    (mg : MulticastGroup) (appendTo : Packet) (limit : Nat) :
    (Multicaster.gather env m q nwid mg appendTo limit).2 ≤ limit ∧
    (Multicaster.gather env m q nwid mg appendTo limit).2 ≤ 0xffff ∧
    (limit ≠ 0 →
      (Multicaster.gather env m q nwid mg appendTo limit).1.bytes.length =
        appendTo.bytes.length + 6 +
          5 * (Multicaster.gather env m q nwid mg appendTo limit).2 ∧
      decode16 (((Multicaster.gather env m q nwid mg appendTo limit).1.bytes.drop
          (appendTo.bytes.length + 4)).take 2) =
        (Multicaster.gather env m q nwid mg appendTo limit).2 ∧
      (Multicaster.gather env m q nwid mg appendTo limit).1.bytes.length ≤
        max (appendTo.bytes.length + 6 +
            (if env.subscribed nwid mg then ZT_ADDRESS_LENGTH else 0))
          ZT_UDP_DEFAULT_PAYLOAD_MTU) := by
  by_cases h : limit = 0
  · subst h
    rw [c4_limit_zero_no_header]
    exact ⟨Nat.zero_le _, Nat.zero_le _, fun h0 => absurd rfl h0⟩
  · obtain ⟨new, tk, hnoq, hcount, hle, hbytes, htk, hmtu⟩ :=
      gather_shape env m q nwid mg appendTo limit h
    have hle2 : (Multicaster.gather env m q nwid mg appendTo limit).2 ≤ 0xffff :=
      hle.trans (Nat.min_le_right _ _)
    refine ⟨hle.trans (Nat.min_le_left _ _), hle2, fun _ => ⟨?_, ?_, hmtu⟩⟩
    · rw [hbytes, hcount]
      simp only [List.length_append, encode32_length, encode16_length,
        flatten_encode40_length]
      cases hsub : env.subscribed nwid mg with
      | false => simp only [hsub, Bool.false_eq_true, if_false, List.length_nil]; omega
      | true => simp only [hsub, if_true, encode40_length, ZT_ADDRESS_LENGTH]; omega
    · rw [hbytes, append_drop_add,
        show (4 : Nat) = (encode32 tk).length from (encode32_length tk).symm,
        append_drop_len,
        show (2 : Nat) = (encode16 ((Multicaster.gather env m q nwid mg appendTo
          limit).2)).length from (encode16_length _).symm,
        append_take_len]
      exact decode16_encode16 _ (by omega)

/-- Witness for c10_amended at a concrete state (the inner implication is
discharged at limit 1). -/
theorem c10_witness :
    (Multicaster.gather cEnv m0 42 9 ⟨5, 0⟩ ⟨[]⟩ 1).2 ≤ 1 ∧
    (Multicaster.gather cEnv m0 42 9 ⟨5, 0⟩ ⟨[]⟩ 1).1.bytes.length =
      (⟨[]⟩ : Packet).bytes.length + 6 +
        5 * (Multicaster.gather cEnv m0 42 9 ⟨5, 0⟩ ⟨[]⟩ 1).2 ∧
    decode16 (((Multicaster.gather cEnv m0 42 9 ⟨5, 0⟩ ⟨[]⟩ 1).1.bytes.drop
        ((⟨[]⟩ : Packet).bytes.length + 4)).take 2) =
      (Multicaster.gather cEnv m0 42 9 ⟨5, 0⟩ ⟨[]⟩ 1).2 :=
  ⟨(c10_amended cEnv m0 42 9 ⟨5, 0⟩ ⟨[]⟩ 1).1,
    ((c10_amended cEnv m0 42 9 ⟨5, 0⟩ ⟨[]⟩ 1).2.2 (by decide)).1,
    ((c10_amended cEnv m0 42 9 ⟨5, 0⟩ ⟨[]⟩ 1).2.2 (by decide)).2.1⟩

/-! ## Find-after-modify and notification lemmas (send and clean) -/

theorem getSlot_occ_lt {data : List (Slot E)} {q : Nat} {e : E}
    (h : getSlot data q = .occ e) : q < data.length := by
  by_contra hge
  rw [getSlot, List.getD_eq_getElem?_getD, List.getElem?_eq_none (by omega)] at h
  exact Slot.noConfusion h

theorem getSlot_dummy_lt {data : List (Slot E)} {q : Nat}
    (h : getSlot data q = .dummy) : q < data.length := by
  by_contra hge
  rw [getSlot, List.getD_eq_getElem?_getD, List.getElem?_eq_none (by omega)] at h
  exact Slot.noConfusion h

theorem getSlot_occ_mem {e : E} :
    ∀ (data : List (Slot E)) (q : Nat), getSlot data q = .occ e → e ∈ occList data := by
  intro data
  induction data with
  | nil =>
    intro q h
    have : q < ([] : List (Slot E)).length := getSlot_occ_lt h
    simp at this
  | cons s ds ih =>
    intro q h
    cases q with
    | zero =>
      rw [getSlot_cons_zero] at h
      subst h
      rw [occList_cons_occ]
      exact List.mem_cons_self _ _
    | succ q =>
      rw [getSlot_cons_succ] at h
      have hmem := ih q h
      cases s with
      | occ f => rw [occList_cons_occ]; exact List.mem_cons_of_mem _ hmem
      | free => rwa [occList_cons_free]
      | dummy => rwa [occList_cons_dummy]

theorem findLoop_some_spec (data : List (Slot E)) (keq : E → Bool) :
    ∀ (fuel p q : Nat), findLoop data keq p fuel = some q →
      ∃ e, getSlot data q = .occ e ∧ keq e = true := by
  intro fuel
  induction fuel with
  | zero =>
    intro p q h
    exact absurd h (by rw [findLoop]; exact Option.noConfusion)
  | succ f ih =>
    intro p q h
    cases hslot : getSlot data p with
    | occ e =>
      by_cases hkeq : keq e = true
      · rw [findLoop_occ hslot hkeq] at h
        cases h
        exact ⟨e, hslot, hkeq⟩
      · rw [findLoop_occ_false hslot hkeq] at h
        exact ih _ q h
    | dummy =>
      rw [findLoop_dummy hslot] at h
      exact ih _ q h
    | free =>
      rw [findLoop_free hslot] at h
      exact Option.noConfusion h

theorem findLoop_set_same (data : List (Slot E)) (keq : E → Bool) (v : E)
    (hv : keq v = true) :
    ∀ (fuel p q : Nat), findLoop data keq p fuel = some q →
      findLoop (data.set q (.occ v)) keq p fuel = some q := by
  intro fuel
  induction fuel with
  | zero =>
    intro p q h
    exact absurd h (by rw [findLoop]; exact Option.noConfusion)
  | succ f ih =>
    intro p q h
    by_cases hpq : p = q
    · subst hpq
      have hlt : p < data.length := by
        cases hslot : getSlot data p with
        | occ e => exact getSlot_occ_lt hslot
        | dummy => exact getSlot_dummy_lt hslot
        | free =>
          rw [findLoop_free hslot] at h
          exact Option.noConfusion h
      exact findLoop_occ (getSlot_set_self _ hlt) hv f
    · have hne : getSlot (data.set q (.occ v)) p = getSlot data p :=
        getSlot_set_ne _ (fun he => hpq he.symm)
      cases hslot : getSlot data p with
      | occ e =>
        by_cases hkeq : keq e = true
        · rw [findLoop_occ hslot hkeq] at h
          cases h
          exact absurd rfl hpq
        · rw [findLoop_occ_false hslot hkeq] at h
          rw [findLoop_occ_false (by rw [hne, hslot]) hkeq, List.length_set]
          exact ih _ q h
      | dummy =>
        rw [findLoop_dummy hslot] at h
        rw [findLoop_dummy (by rw [hne, hslot]), List.length_set]
        exact ih _ q h
      | free =>
        rw [findLoop_free hslot] at h
        exact Option.noConfusion h

theorem find_some_spec (t : Table E) (hk : Nat) (keq : E → Bool) (e : E)
    (h : t.find hk keq = some e) : e ∈ occList t.data ∧ keq e = true := by
  unfold Table.find at h
  cases hidx : findIdx t hk keq with
  | none =>
    rw [hidx] at h
    exact Option.noConfusion h
  | some p =>
    rw [hidx] at h
    obtain ⟨e2, hslot, hkeq⟩ := findLoop_some_spec t.data keq (capacity t)
      (hk % capacity t) p hidx
    have h2 : (match getSlot t.data p with
        | Slot.occ e => some e
        | _ => none) = some e := h
    rw [hslot] at h2
    have h3 : some e2 = some e := h2
    cases h3
    exact ⟨getSlot_occ_mem t.data p hslot, hkeq⟩

theorem keyEq_update (mac nwid : Nat) (gs : MulticastGroupStatus)
    (leg : Nat) (txq : List OutboundMulticast) (ms : List MulticastGroupMember) :
    keyEq mac nwid { gs with lastExplicitGather := leg, txQueue := txq, members := ms } =
      keyEq mac nwid gs := rfl

/-- Mutating the group found by key (the model of mutating through the C++
reference) leaves it findable under the same key, holding the mutated
state, provided the mutation preserves the key fields. -/
theorem findGroup_modifyGroup (m : Multicaster) (nwid : Nat) (mg : MulticastGroup)
    (f : MulticastGroupStatus → MulticastGroupStatus)
    (hkey : ∀ gs, keyEq mg.mac nwid gs = true → keyEq mg.mac nwid (f gs) = true)
    (gs0 : MulticastGroupStatus)
    (hfind : findGroup m.groups nwid mg = some gs0) :
    findGroup (modifyGroup m nwid mg f).groups nwid mg = some (f gs0) := by
  cases hidx : findIdx m.groups mg.mac (keyEq mg.mac nwid) with
  | none =>
    have hnone : findGroup m.groups nwid mg = none := by
      unfold findGroup Table.find
      rw [hidx]
    rw [hnone] at hfind
    exact Option.noConfusion hfind
  | some p =>
    obtain ⟨e2, hslot, hkeq⟩ := findLoop_some_spec m.groups.data (keyEq mg.mac nwid)
      (capacity m.groups) (mg.mac % capacity m.groups) p hidx
    have hval : findGroup m.groups nwid mg = some e2 := by
      unfold findGroup Table.find
      simp only [hidx, hslot]
    rw [hval] at hfind
    cases hfind
    unfold modifyGroup
    simp only [hidx, hslot]
    unfold findGroup Table.find findIdx
    have hcap : capacity (⟨m.groups.data.set p (.occ (f gs0)), m.groups.size⟩ :
        Table MulticastGroupStatus) = capacity m.groups := by
      unfold capacity
      rw [table_data_mk, List.length_set]
    rw [table_data_mk, hcap]
    have hloop := findLoop_set_same m.groups.data (keyEq mg.mac nwid) (f gs0)
      (hkey gs0 hkeq) (capacity m.groups) (mg.mac % capacity m.groups) p hidx
    simp only [hloop, getSlot_set_self _ (getSlot_occ_lt hslot)]

theorem sendAndLog_limit (om : OutboundMulticast) (a : Nat) :
    (om.sendAndLog a).limit = om.limit := rfl

theorem sendAndLog_length (om : OutboundMulticast) (a : Nat) :
    (om.sendAndLog a).alreadySentTo.length = om.alreadySentTo.length + 1 := by
  unfold OutboundMulticast.sendAndLog
  simp

theorem notifyAst_spec (localAddr limit : Nat) :
    ∀ (lst : List Nat) (out : OutboundMulticast) (count : Nat), count < limit →
      (notifyAst localAddr limit out count lst).2 ≤ limit ∧
      (notifyAst localAddr limit out count lst).1.alreadySentTo.length + count =
        out.alreadySentTo.length + (notifyAst localAddr limit out count lst).2 ∧
      (notifyAst localAddr limit out count lst).1.limit = out.limit := by
  intro lst
  induction lst with
  | nil =>
    intro out count hc
    refine ⟨?_, ?_, rfl⟩
    · show count ≤ limit
      omega
    · rw [notifyAst]
  | cons ast rest ih =>
    intro out count hc
    rw [notifyAst]
    by_cases hself : ast ≠ localAddr
    · rw [if_pos hself]
      by_cases hlim : limit ≤ count + 1
      · rw [if_pos hlim]
        refine ⟨?_, ?_, ?_⟩
        · show count + 1 ≤ limit
          omega
        · show (out.sendAndLog ast).alreadySentTo.length + count =
            out.alreadySentTo.length + (count + 1)
          rw [sendAndLog_length]
          omega
        · show (out.sendAndLog ast).limit = out.limit
          exact sendAndLog_limit out ast
      · rw [if_neg hlim]
        obtain ⟨h1, h2, h3⟩ := ih (out.sendAndLog ast) (count + 1) (by omega)
        refine ⟨h1, ?_, by rw [h3, sendAndLog_limit]⟩
        rw [sendAndLog_length] at h2
        omega
    · rw [if_neg hself]
      exact ih out count hc

theorem notifyMembers_spec (alwaysSendTo : List Nat) (limit : Nat)
    (members : List MulticastGroupMember) :
    ∀ (idxs : List Nat) (out : OutboundMulticast) (count : Nat), count ≤ limit →
      (notifyMembers alwaysSendTo limit members out count idxs).2 ≤ limit ∧
      (notifyMembers alwaysSendTo limit members out count idxs).1.alreadySentTo.length
          + count =
        out.alreadySentTo.length +
          (notifyMembers alwaysSendTo limit members out count idxs).2 ∧
      (notifyMembers alwaysSendTo limit members out count idxs).1.limit = out.limit := by
  intro idxs
  induction idxs with
  | nil =>
    intro out count hc
    exact ⟨hc, by rw [notifyMembers], rfl⟩
  | cons i rest ih =>
    intro out count hc
    rw [notifyMembers]
    by_cases hlt : count < limit
    · rw [if_pos hlt]
      by_cases hmem : (members.getD i ⟨0, 0⟩).address ∈ alwaysSendTo
      · rw [if_pos hmem]
        exact ih out count hc
      · rw [if_neg hmem]
        obtain ⟨h1, h2, h3⟩ := ih (out.sendAndLog _) (count + 1) (by omega)
        refine ⟨h1, ?_, by rw [h3, sendAndLog_limit]⟩
        rw [sendAndLog_length] at h2
        omega
    · rw [if_neg hlt]
      exact ⟨hc, rfl, rfl⟩

/-- Every transmission kept by the txQueue sweep of _add is strictly under
its limit (the sweep drops at-limit transmissions before and after
notifying). -/
theorem txSweep_not_atLimit (a : Nat) :
    ∀ (txq : List OutboundMulticast) (tx : OutboundMulticast),
      tx ∈ txSweep a txq → tx.atLimit = false := by
  intro txq
  induction txq with
  | nil =>
    intro tx h
    simp [txSweep] at h
  | cons t rest ih =>
    intro tx h
    simp only [txSweep] at h
    by_cases h1 : t.atLimit = true
    · rw [if_pos h1] at h
      exact ih tx h
    · rw [if_neg h1] at h
      by_cases h2 : (t.sendIfNew a).atLimit = true
      · rw [if_pos h2] at h
        exact ih tx h
      · rw [if_neg h2] at h
        rcases List.mem_cons.mp h with rfl | h3
        · simpa using h2
        · exact ih tx h3

/-- _add preserves the invariant that every queued transmission has notified
at most its limit of addresses. -/
theorem add_txBound (env : Env) (now nwid : Nat) (mg : MulticastGroup)
    (m2 : Multicaster) (a : Nat)
    (hInv : ∀ gs ∈ occList m2.groups.data, ∀ tx ∈ gs.txQueue,
      tx.alreadySentTo.length ≤ tx.limit) :
    ∀ gs ∈ occList (m2._add env now nwid mg a).groups.data, ∀ tx ∈ gs.txQueue,
      tx.alreadySentTo.length ≤ tx.limit := by
  intro gs hgs tx htx
  unfold Multicaster._add at hgs
  by_cases hceil : 1600 < m2.groups.size
  · rw [if_pos hceil] at hgs
    exact hInv gs hgs tx htx
  · rw [if_neg hceil] at hgs
    by_cases hself : (a == env.localAddress) = true
    · rw [if_pos hself] at hgs
      exact hInv gs hgs tx htx
    · rw [if_neg hself] at hgs
      unfold modifyGroup at hgs
      cases hidx : findIdx m2.groups mg.mac (keyEq mg.mac nwid) with
      | none =>
        simp only [hidx] at hgs
        exact hInv gs hgs tx htx
      | some p =>
        simp only [hidx] at hgs
        cases hslot : getSlot m2.groups.data p with
        | free =>
          simp only [hslot] at hgs
          exact hInv gs hgs tx htx
        | dummy =>
          simp only [hslot] at hgs
          exact hInv gs hgs tx htx
        | occ gs0 =>
          simp only [hslot] at hgs
          cases hr : refreshMember now a gs0.members with
          | some ms =>
            simp only [hr] at hgs
            rcases occList_set_occ_subset _ m2.groups.data p gs hgs with rfl | hmem
            · exact hInv gs0 (getSlot_occ_mem m2.groups.data p hslot) tx htx
            · exact hInv gs hmem tx htx
          | none =>
            simp only [hr] at hgs
            rcases occList_set_occ_subset _ m2.groups.data p gs hgs with rfl | hmem
            · have htx2 : tx ∈ txSweep a gs0.txQueue := htx
              have hfa := txSweep_not_atLimit a gs0.txQueue tx htx2
              unfold OutboundMulticast.atLimit at hfa
              simp at hfa
              omega
            · exact hInv gs hmem tx htx

/-- The alwaysSendTo pass followed by the shuffled-member pass, started on a
fresh transmission, notifies at most limit addresses and preserves the
transmission's limit field. -/
theorem notifyPipeline_bound (localAddr limit : Nat) (ast : List Nat)
    (members : List MulticastGroupMember) (idxs : List Nat)
    (out0 : OutboundMulticast) (h0 : 0 < limit) (hlen : out0.alreadySentTo = [])
    (hlim : out0.limit = limit) :
    (notifyMembers ast limit members (notifyAst localAddr limit out0 0 ast).1
        (notifyAst localAddr limit out0 0 ast).2 idxs).1.alreadySentTo.length ≤ limit ∧
    (notifyMembers ast limit members (notifyAst localAddr limit out0 0 ast).1
        (notifyAst localAddr limit out0 0 ast).2 idxs).1.limit = limit := by
  obtain ⟨ha1, ha2, ha3⟩ := notifyAst_spec localAddr limit ast out0 0 h0
  obtain ⟨hb1, hb2, hb3⟩ := notifyMembers_spec ast limit members idxs
    (notifyAst localAddr limit out0 0 ast).1 (notifyAst localAddr limit out0 0 ast).2 ha1
  rw [hlen] at ha2
  simp only [List.length_nil, Nat.add_zero, Nat.zero_add] at ha2
  constructor
  · omega
  · rw [hb3, ha3, hlim]

/-- sendQueuedOut written with its lets resolved, so the notify specs apply
to it. -/
theorem sendQueuedOut_eq (env : Env) (m : Multicaster) (limit now nwid : Nat)
    (ast : List Nat) (mg : MulticastGroup) :
    sendQueuedOut env m limit now nwid ast mg =
      (notifyMembers ast limit (getGroup m nwid mg).2.members
        (notifyAst env.localAddress limit
          ⟨now, limit,
            (if ZT_MULTICAST_EXPLICIT_GATHER_DELAY ≤
                sub64 now (getGroup m nwid mg).2.lastExplicitGather then 0
             else limit - (getGroup m nwid mg).2.members.length + 1), []⟩ 0 ast).1
        (notifyAst env.localAddress limit
          ⟨now, limit,
            (if ZT_MULTICAST_EXPLICIT_GATHER_DELAY ≤
                sub64 now (getGroup m nwid mg).2.lastExplicitGather then 0
             else limit - (getGroup m nwid mg).2.members.length + 1), []⟩ 0 ast).2
        (if (getGroup m nwid mg).2.members.isEmpty then []
         else fisherYates env.prng (getGroup m nwid mg).2.members.length)).1 := by
  simp only [sendQueuedOut]

/-- The transmission queued by send has notified at most limit addresses at
creation, and carries limit as its limit field. -/
theorem sendQueuedOut_bound (env : Env) (m : Multicaster) (limit now nwid : Nat)
    (ast : List Nat) (mg : MulticastGroup) (h0 : 0 < limit) :
    (sendQueuedOut env m limit now nwid ast mg).alreadySentTo.length ≤ limit ∧
    (sendQueuedOut env m limit now nwid ast mg).limit = limit := by
  rw [sendQueuedOut_eq]
  exact notifyPipeline_bound env.localAddress limit ast _ _ _ h0 rfl rfl

/-- Claim C6.  Send strategy dichotomy: when the group already knows at
least limit members, send leaves the store exactly as getGroup left it (the
transmission is transient, nothing is queued); when it knows fewer, exactly
one OutboundMulticast is appended to the group's txQueue (and the explicit
gather is stamped when due), that transmission has notified at most limit
addresses and records limit as its cap; and _add preserves the
at-most-limit notification bound of every queued transmission, so later
member additions never push a queued transmission past its limit. -/
theorem c6_send_strategies (env : Env) (m : Multicaster) (limit now nwid : Nat)
    (ast : List Nat) (mg : MulticastGroup) :
    (limit ≤ (getGroup m nwid mg).2.members.length →
      Multicaster.send env m limit now nwid ast mg = (getGroup m nwid mg).1) ∧
    ((getGroup m nwid mg).2.members.length < limit →
      ∀ gs1 : MulticastGroupStatus,
        findGroup (getGroup m nwid mg).1.groups nwid mg = some gs1 →
        ∃ out : OutboundMulticast,
          findGroup (Multicaster.send env m limit now nwid ast mg).groups nwid mg =
            some { gs1 with
              lastExplicitGather :=
                if ZT_MULTICAST_EXPLICIT_GATHER_DELAY ≤
                    sub64 now (getGroup m nwid mg).2.lastExplicitGather then now
                else gs1.lastExplicitGather,
              txQueue := gs1.txQueue ++ [out] } ∧
          out.alreadySentTo.length ≤ limit ∧ out.limit = limit) ∧
    (∀ (m2 : Multicaster) (a : Nat),
      (∀ gs ∈ occList m2.groups.data, ∀ tx ∈ gs.txQueue,
        tx.alreadySentTo.length ≤ tx.limit) →
      ∀ gs ∈ occList (m2._add env now nwid mg a).groups.data, ∀ tx ∈ gs.txQueue,
        tx.alreadySentTo.length ≤ tx.limit) := by
  refine ⟨?_, ?_, ?_⟩
  · intro hge
    simp only [Multicaster.send]
    rw [if_pos hge]
  · intro hlt gs1 hfind1
    have h0 : 0 < limit := by omega
    have hsend : Multicaster.send env m limit now nwid ast mg =
        modifyGroup (getGroup m nwid mg).1 nwid mg (fun gs2 =>
          { gs2 with
            lastExplicitGather :=
              if ZT_MULTICAST_EXPLICIT_GATHER_DELAY ≤
                  sub64 now (getGroup m nwid mg).2.lastExplicitGather then now
              else gs2.lastExplicitGather,
            txQueue := gs2.txQueue ++ [sendQueuedOut env m limit now nwid ast mg] }) := by
      simp only [Multicaster.send, sendQueuedOut]
      rw [if_neg (by omega : ¬ limit ≤ (getGroup m nwid mg).2.members.length)]
    have key := findGroup_modifyGroup (getGroup m nwid mg).1 nwid mg
      (fun gs2 =>
        { gs2 with
          lastExplicitGather :=
            if ZT_MULTICAST_EXPLICIT_GATHER_DELAY ≤
                sub64 now (getGroup m nwid mg).2.lastExplicitGather then now
            else gs2.lastExplicitGather,
          txQueue := gs2.txQueue ++ [sendQueuedOut env m limit now nwid ast mg] })
      (fun gs2 h => h) gs1 hfind1
    refine ⟨sendQueuedOut env m limit now nwid ast mg, ?_, ?_, ?_⟩
    · rw [hsend]
      exact key
    · exact (sendQueuedOut_bound env m limit now nwid ast mg h0).1
    · exact (sendQueuedOut_bound env m limit now nwid ast mg h0).2
  · intro m2 a hInv
    exact add_txBound env now nwid mg m2 a hInv

/-- Witness for C6: the one-member store sendM with limit 2 takes the queued
strategy and appends one transmission that notified the alwaysSendTo peer 7
and the member 5 — two addresses, within the limit. -/
theorem cleanData_cons_occ (now : Nat) (gs : MulticastGroupStatus)
    (ds : List (Slot MulticastGroupStatus)) :
    cleanData now (.occ gs :: ds) =
      (if cleanErases now gs then Slot.dummy else Slot.occ (cleanGroup now gs)) ::
        cleanData now ds := rfl

theorem cleanData_cons_free (now : Nat) (ds : List (Slot MulticastGroupStatus)) :
    cleanData now (.free :: ds) = Slot.free :: cleanData now ds := rfl

theorem cleanData_cons_dummy (now : Nat) (ds : List (Slot MulticastGroupStatus)) :
    cleanData now (.dummy :: ds) = Slot.dummy :: cleanData now ds := rfl

/-- Everything live after the clean sweep is the cleaned copy of a live
group that the sweep did not erase. -/
theorem occList_cleanData_mem (now : Nat) :
    ∀ (data : List (Slot MulticastGroupStatus)) (x : MulticastGroupStatus),
      x ∈ occList (cleanData now data) →
      ∃ gs0, gs0 ∈ occList data ∧ cleanErases now gs0 = false ∧
        x = cleanGroup now gs0 := by
  intro data
  induction data with
  | nil =>
    intro x hx
    simp [cleanData, occList] at hx
  | cons s ds ih =>
    intro x hx
    cases s with
    | occ gs =>
      rw [cleanData_cons_occ] at hx
      by_cases he : cleanErases now gs = true
      · rw [if_pos he, occList_cons_dummy] at hx
        obtain ⟨gs0, h1, h2, h3⟩ := ih x hx
        exact ⟨gs0, by rw [occList_cons_occ]; exact List.mem_cons_of_mem _ h1, h2, h3⟩
      · rw [if_neg he, occList_cons_occ] at hx
        rcases List.mem_cons.mp hx with h | h
        · exact ⟨gs, by rw [occList_cons_occ]; exact List.mem_cons_self _ _,
            by simpa using he, h⟩
        · obtain ⟨gs0, h1, h2, h3⟩ := ih x h
          exact ⟨gs0, by rw [occList_cons_occ]; exact List.mem_cons_of_mem _ h1, h2, h3⟩
    | free =>
      rw [cleanData_cons_free, occList_cons_free] at hx
      obtain ⟨gs0, h1, h2, h3⟩ := ih x hx
      exact ⟨gs0, by rwa [occList_cons_free], h2, h3⟩
    | dummy =>
      rw [cleanData_cons_dummy, occList_cons_dummy] at hx
      obtain ⟨gs0, h1, h2, h3⟩ := ih x hx
      exact ⟨gs0, by rwa [occList_cons_dummy], h2, h3⟩

/-- A live group the sweep keeps survives the sweep as its cleaned copy. -/
theorem cleanData_mem_forward (now : Nat) :
    ∀ (data : List (Slot MulticastGroupStatus)) (gs : MulticastGroupStatus),
      gs ∈ occList data → cleanErases now gs = false →
      cleanGroup now gs ∈ occList (cleanData now data) := by
  intro data
  induction data with
  | nil =>
    intro gs hgs _
    simp [occList] at hgs
  | cons s ds ih =>
    intro gs hgs he
    cases s with
    | occ g0 =>
      rw [occList_cons_occ] at hgs
      rw [cleanData_cons_occ]
      rcases List.mem_cons.mp hgs with h | h
      · subst h
        rw [if_neg (by simp [he]), occList_cons_occ]
        exact List.mem_cons_self _ _
      · by_cases hg0 : cleanErases now g0 = true
        · rw [if_pos hg0, occList_cons_dummy]
          exact ih gs h he
        · rw [if_neg hg0, occList_cons_occ]
          exact List.mem_cons_of_mem _ (ih gs h he)
    | free =>
      rw [occList_cons_free] at hgs
      rw [cleanData_cons_free, occList_cons_free]
      exact ih gs hgs he
    | dummy =>
      rw [occList_cons_dummy] at hgs
      rw [cleanData_cons_dummy, occList_cons_dummy]
      exact ih gs hgs he

/-- The clean sweep loses exactly the erased groups: surviving live count
plus erased count equals the old live count. -/
theorem occCount_cleanData (now : Nat) :
    ∀ data : List (Slot MulticastGroupStatus),
      occCount (cleanData now data) + data.countP (cleanErasedP now) =
        occCount data := by
  intro data
  induction data with
  | nil => rfl
  | cons s ds ih =>
    rw [List.countP_cons]
    cases s with
    | occ gs =>
      rw [cleanData_cons_occ, occCount_cons_occ]
      simp only [cleanErasedP]
      by_cases he : cleanErases now gs = true
      · rw [if_pos he, occCount_cons_dummy, if_pos he]
        omega
      · rw [if_neg he, occCount_cons_occ, if_neg he]
        omega
    | free =>
      rw [cleanData_cons_free, occCount_cons_free, occCount_cons_free]
      simpa [cleanErasedP] using ih
    | dummy =>
      rw [cleanData_cons_dummy, occCount_cons_dummy, occCount_cons_dummy]
      simpa [cleanErasedP] using ih

/-- compact never invents a live entry. -/
theorem compact_occ_subset (hashE : E → Nat) (t : Table E) (x : E)
    (hx : x ∈ occList (t.compact hashE).data) : x ∈ occList t.data := by
  unfold Table.compact shrink at hx
  split at hx
  · exact resize_subset hashE t _ x hx
  · exact hx

/-- compact keeps every live entry, provided the stored size bounds the live
count (the shrink target then has room for the rehash). -/
theorem compact_occ_mem (hashE : E → Nat) (t : Table E)
    (hocc : occCount t.data ≤ t.size) (x : E)
    (hx : x ∈ occList t.data) : x ∈ occList (t.compact hashE).data := by
  unfold Table.compact shrink
  split
  · next h =>
    have h2 : occCount t.data ≤ capacity t / 2 := by omega
    obtain ⟨-, hperm⟩ := resize_spec hashE t (capacity t / 2) h2
    exact hperm.mem_iff.mpr hx
  · exact hx

/-- Claim C7.  clean(now) removes every member outside the liveness window
and every expired or at-limit transmission from every surviving group, and no
surviving group is empty on both counts; a group whose every live match for a
key is erased by the sweep is absent from a subsequent find for that key; and
a live group the sweep does not erase (in particular one with no members but
a non-empty pending queue) survives as its cleaned copy. -/
theorem c7_clean (m : Multicaster) (now : Nat)
    (hwf : m.groups.size = occCount m.groups.data) :
    (∀ gs ∈ occList (m.clean now).groups.data,
      (∀ mm ∈ gs.members, sub64 now mm.timestamp < ZT_MULTICAST_LIKE_EXPIRE) ∧
      (∀ tx ∈ gs.txQueue, tx.expired now = false ∧ tx.atLimit = false) ∧
      (gs.members.isEmpty && gs.txQueue.isEmpty) = false) ∧
    (∀ (nwid : Nat) (mg : MulticastGroup),
      (∀ gs ∈ occList m.groups.data, keyEq mg.mac nwid gs = true →
        cleanErases now gs = true) →
      findGroup (m.clean now).groups nwid mg = none) ∧
    (∀ gs ∈ occList m.groups.data, cleanErases now gs = false →
      cleanGroup now gs ∈ occList (m.clean now).groups.data) := by
  have hD : (m.clean now).groups =
      Table.compact hashMGS ⟨cleanData now m.groups.data,
        m.groups.size - m.groups.data.countP (cleanErasedP now)⟩ := rfl
  refine ⟨?_, ?_, ?_⟩
  · intro gs hgs
    rw [hD] at hgs
    have hx2 : gs ∈ occList (cleanData now m.groups.data) :=
      compact_occ_subset hashMGS _ gs hgs
    obtain ⟨gs0, hgs0, herase, hxeq⟩ := occList_cleanData_mem now m.groups.data gs hx2
    subst hxeq
    refine ⟨?_, ?_, ?_⟩
    · intro mm hmm
      have hmm2 : mm ∈ gs0.members.filter
          (fun mm => sub64 now mm.timestamp < ZT_MULTICAST_LIKE_EXPIRE) := hmm
      have h2 := (List.mem_filter.mp hmm2).2
      simpa using h2
    · intro tx htx
      have htx2 : tx ∈ gs0.txQueue.filter
          (fun tx => !(tx.expired now || tx.atLimit)) := htx
      have h2 := (List.mem_filter.mp htx2).2
      rw [Bool.not_eq_true'] at h2
      exact Bool.or_eq_false_iff.mp h2
    · unfold cleanErases at herase
      exact herase
  · intro nwid mg hall
    cases hfind : findGroup (m.clean now).groups nwid mg with
    | none => rfl
    | some gsf =>
      exfalso
      have hfind2 : ((m.clean now).groups).find mg.mac (keyEq mg.mac nwid) =
          some gsf := hfind
      obtain ⟨hmem, hkey⟩ := find_some_spec _ _ _ _ hfind2
      rw [hD] at hmem
      have hx2 : gsf ∈ occList (cleanData now m.groups.data) :=
        compact_occ_subset hashMGS _ gsf hmem
      obtain ⟨gs0, hgs0, herase, hxeq⟩ := occList_cleanData_mem now m.groups.data gsf hx2
      subst hxeq
      have hkey0 : keyEq mg.mac nwid gs0 = true := hkey
      have := hall gs0 hgs0 hkey0
      rw [this] at herase
      exact Bool.noConfusion herase
  · intro gs hgs herase
    rw [hD]
    apply compact_occ_mem
    · show occCount (cleanData now m.groups.data) ≤
        m.groups.size - m.groups.data.countP (cleanErasedP now)
      have hc := occCount_cleanData now m.groups.data
      omega
    · exact cleanData_mem_forward now m.groups.data gs hgs herase

/-- Witness for C7 on the two-group store cleanM at time 700000: group MAC 2
(stale lone member) is gone from find, group MAC 3 (fresh member) survives as
its cleaned copy. -/
theorem c7_witness :
    cleanM.groups.size = occCount cleanM.groups.data ∧
    (∀ gs ∈ occList cleanM.groups.data, keyEq 2 1 gs = true →
      cleanErases 700000 gs = true) ∧
    findGroup (cleanM.clean 700000).groups 1 ⟨2, 0⟩ = none ∧
    cleanGroup 700000 ⟨1, 3, 0, [], [⟨6, 650000⟩]⟩ ∈
      occList (cleanM.clean 700000).groups.data :=
  ⟨by decide, by decide,
   (c7_clean cleanM 700000 (by decide)).2.1 1 ⟨2, 0⟩ (by decide),
   (c7_clean cleanM 700000 (by decide)).2.2 ⟨1, 3, 0, [], [⟨6, 650000⟩]⟩ (by decide)
     (by decide)⟩

theorem c6_witness :
    (getGroup sendM 1 ⟨3, 0⟩).2.members.length < 2 ∧
    ∃ out : OutboundMulticast,
      findGroup (Multicaster.send env0 sendM 2 70000 1 [7] ⟨3, 0⟩).groups 1 ⟨3, 0⟩ =
        some { (⟨1, 3, 0, [], [⟨5, 100⟩]⟩ : MulticastGroupStatus) with
          lastExplicitGather :=
            if ZT_MULTICAST_EXPLICIT_GATHER_DELAY ≤
                sub64 70000 (getGroup sendM 1 ⟨3, 0⟩).2.lastExplicitGather then 70000
            else (⟨1, 3, 0, [], [⟨5, 100⟩]⟩ : MulticastGroupStatus).lastExplicitGather,
          txQueue :=
            (⟨1, 3, 0, [], [⟨5, 100⟩]⟩ : MulticastGroupStatus).txQueue ++ [out] } ∧
      out.alreadySentTo.length ≤ 2 ∧ out.limit = 2 :=
  ⟨by decide,
   (c6_send_strategies env0 sendM 2 70000 1 [7] ⟨3, 0⟩).2.1 (by decide)
     ⟨1, 3, 0, [], [⟨5, 100⟩]⟩ (by decide)⟩

end ZTProof
